import Mathlib

set_option maxRecDepth 100000
set_option maxHeartbeats 1000000

namespace AstroApp

/-! Shallow embedding of the native core of the Astro-Mobile-App repository.
The definitions below translate `app/src/main/cpp/jni/astrometry_jni.c` and
`app/src/main/cpp/jni/stacking_jni.c`.  IEEE float/double arithmetic is
modelled by exact rational arithmetic; a value of the form `sqrtf q` is
represented by its radicand `q` (structure `SqrtQ` below), and every
comparison the C code performs on such values is decided exactly on the
radicands.

The Mathlib field operations on `ℚ` are not reducible by the kernel, so the
embedding is written with the computable mirrors `qadd`, `qmul`, ... defined
first; each mirror is proved equal to the corresponding Mathlib operation
(`qadd_eq` and friends in the theorem part), so every statement can be read
in ordinary field arithmetic. -/

/-! Computable rational arithmetic mirrors. -/

/-- Computable `a + b` on `ℚ`. -/
def qadd (a b : ℚ) : ℚ :=
  mkRat (a.num * b.den + b.num * a.den) (a.den * b.den)

/-- Computable `-a` on `ℚ`. -/
def qneg (a : ℚ) : ℚ :=
  mkRat (-a.num) a.den

/-- Computable `a - b` on `ℚ`. -/
def qsub (a b : ℚ) : ℚ :=
  qadd a (qneg b)

/-- Computable `a * b` on `ℚ`. -/
def qmul (a b : ℚ) : ℚ :=
  mkRat (a.num * b.num) (a.den * b.den)

/-- Computable `a⁻¹` on `ℚ`. -/
def qinv (a : ℚ) : ℚ :=
  if 0 ≤ a.num then mkRat a.den a.num.toNat
  else qneg (mkRat a.den (-a.num).toNat)

/-- Computable `a / b` on `ℚ`. -/
def qdiv (a b : ℚ) : ℚ :=
  qmul a (qinv b)

/-- Computable `a < b` on `ℚ`. -/
def qlt (a b : ℚ) : Prop :=
  a.num * b.den < b.num * a.den

instance (a b : ℚ) : Decidable (qlt a b) := by
  unfold qlt; infer_instance

/-- Computable `a ≤ b` on `ℚ`. -/
def qle (a b : ℚ) : Prop :=
  a.num * b.den ≤ b.num * a.den

instance (a b : ℚ) : Decidable (qle a b) := by
  unfold qle; infer_instance

/-- Computable `|a|` on `ℚ` (C `fabs`). -/
def qabs (a : ℚ) : ℚ :=
  if qlt a 0 then qneg a else a

/-- Computable `⌊a⌋` on `ℚ`. -/
def qfloor (a : ℚ) : ℤ :=
  a.num / a.den

/-- Computable `⌈a⌉` on `ℚ`. -/
def qceil (a : ℚ) : ℤ :=
  -qfloor (qneg a)

/-- C cast `(int)` of a rational value: truncation toward zero. -/
def truncQ (q : ℚ) : ℤ :=
  if qle 0 q then qfloor q else qceil q

/-- Structural integer square root: the largest `k ≤ n` with `k * k ≤ n`
(the well-founded `Nat.sqrt` is not reducible by the kernel). -/
def natSqrt (n : ℕ) : ℕ :=
  (List.range (n + 1)).foldl (fun acc k => if k * k ≤ n then k else acc) 0

/-! Part A: `astrometry_jni.c` - star detection wrapper and star orderer. -/

/-- A detected star as produced by the embedded `simplexy` detector:
subpixel position, background-subtracted flux and local background. -/
structure Star where
  x : ℚ
  y : ℚ
  flux : ℚ
  background : ℚ
deriving DecidableEq, Inhabited, Repr

/-- Lookup of star `s` in the detected list (C array indexing `params.x[s]` etc.). -/
def star (stars : List Star) (s : ℕ) : Star :=
  stars.getD s default

/-- One step of the C insertion sort of `astrometry_jni.c` lines 119-141:
insert index `k` into the descending-sorted accumulator, moving it left past
entries whose value is strictly smaller (stable for ties). -/
def insDesc (f : ℕ → ℚ) (k : ℕ) : List ℕ → List ℕ
  | [] => [k]
  | a :: rest => if qlt (f a) (f k) then k :: a :: rest else a :: insDesc f k rest

/-- The C insertion sort (descending by `f`, stable), processing the list left
to right as the in-place loop does. -/
def sortDesc (f : ℕ → ℚ) (l : List ℕ) : List ℕ :=
  l.foldl (fun acc k => insDesc f k acc) []

/-- Indices `0..N-1` sorted by background-subtracted flux, descending
(`perm1` in the C code). -/
def perm1 (stars : List Star) : List ℕ :=
  sortDesc (fun i => (star stars i).flux) (List.range stars.length)

/-- Raw signal of star `i`: `flux[i] + background[i]` (`rawsignal` in the C code). -/
def rawsignal (stars : List Star) (i : ℕ) : ℚ :=
  qadd (star stars i).flux (star stars i).background

/-- Indices `0..N-1` sorted by raw signal, descending (`perm2` in the C code). -/
def perm2 (stars : List Star) : List ℕ :=
  sortDesc (rawsignal stars) (List.range stars.length)

/-- The interleave loop of `astrometry_jni.c` lines 143-154.  `out` is the
emitted list so far; membership in `out` plays the role of the `used` flags.
For each rank the loop emits `perm1[i]` if not yet emitted, then (if the
output is not yet full) `perm2[i]` if not yet emitted. -/
def interleaveAux (N : ℕ) : List (ℕ × ℕ) → List ℕ → List ℕ
  | [], out => out
  | (a, b) :: rest, out =>
    if N ≤ out.length then out
    else
      let out1 := if a ∈ out then out else out ++ [a]
      let out2 := if b ∈ out1 ∨ N ≤ out1.length then out1 else out1 ++ [b]
      interleaveAux N rest out2

/-- The brightness-interleaved order (`output_order` after lines 143-154). -/
def outputOrder (stars : List Star) : List ℕ :=
  interleaveAux stars.length ((perm1 stars).zip (perm2 stars)) []

/-- Bounding-box fold of `astrometry_jni.c` lines 163-171: running min/max of
the x and y coordinates of the stars of the order list (seeded with the first
element), with the C comparisons `if (x < xmin) xmin = x` etc.  The C code
only runs this with a nonempty list; the `[]` case is arbitrary. -/
def bboxFold (stars : List Star) (ord : List ℕ) : ℚ × ℚ × ℚ × ℚ :=
  match ord with
  | [] => (0, 0, 0, 0)
  | s0 :: rest =>
    rest.foldl
      (fun acc s =>
        let st := star stars s
        (if qlt st.x acc.1 then st.x else acc.1,
         if qlt acc.2.1 st.x then st.x else acc.2.1,
         if qlt st.y acc.2.2.1 then st.y else acc.2.2.1,
         if qlt acc.2.2.2 st.y then st.y else acc.2.2.2))
      ((star stars s0).x, (star stars s0).x, (star stars s0).y, (star stars s0).y)

/-- Exact value of the C expression `(int)(Wf / sqrtf(Wf*Hf/10.0f) + 0.5f)` for
`0 < Wf` and `0 < Hf`.  Since `Wf / √(Wf*Hf/10) = √(10*Wf/Hf) =: √B`, the
expression is `⌊√B + 1/2⌋ = (⌊√(4*B)⌋ + 1) / 2 = (natSqrt ⌊4*B⌋ + 1) / 2`. -/
def floorSqrtHalf (B : ℚ) : ℕ :=
  (natSqrt (qfloor (qmul 4 B)).toNat + 1) / 2

/-- `NX` of the uniformize step (`astrometry_jni.c` lines 177-178), including
the `if (NX < 1) NX = 1` clamp. -/
def computeNX (Wf Hf : ℚ) : ℕ :=
  max (floorSqrtHalf (qdiv (qmul 10 Wf) Hf)) 1

/-- `NY` of the uniformize step (lines 179-180): `(int)(10.0f/NX + 0.5f)`,
clamped to at least 1. -/
def computeNY (NX : ℕ) : ℕ :=
  max (qfloor (qadd (qdiv 10 (NX : ℚ)) (mkRat 1 2))).toNat 1

/-- Clamp of a bin coordinate (lines 192-195): first `if (ix >= n) ix = n-1`,
then `if (ix < 0) ix = 0`. -/
def clampBin (n : ℕ) (v : ℤ) : ℕ :=
  let v1 := if (n : ℤ) ≤ v then (n : ℤ) - 1 else v
  let v2 := if v1 < 0 then 0 else v1
  v2.toNat

/-- Bin of a star on the `NX` by `NY` grid over the bounding box
(lines 188-196): `iy * NX + ix`. -/
def starBin (xmin ymin Wf Hf : ℚ) (NX NY : ℕ) (st : Star) : ℕ :=
  let ix := clampBin NX (truncQ (qmul (qdiv (qsub st.x xmin) Wf) (NX : ℚ)))
  let iy := clampBin NY (truncQ (qmul (qdiv (qsub st.y ymin) Hf) (NY : ℚ)))
  iy * NX + ix

/-- Positions (indices into the order list) assigned to bin `b`, in increasing
order - the contents of `bin_lists[b]` (lines 204-211). -/
def binListPos (assign : ℕ → ℕ) (N b : ℕ) : List ℕ :=
  (List.range N).filter (fun i => assign i = b)

/-- `maxlen`: the largest bin occupancy (lines 200-202). -/
def maxBinLen (assign : ℕ → ℕ) (N nbins : ℕ) : ℕ :=
  ((List.range nbins).map (fun b => (binListPos assign N b).length)).foldr max 0

/-- One step of the plain ascending insertion sort used on `thisrow`
(lines 223-228), stable for ties. -/
def insAsc (k : ℕ) : List ℕ → List ℕ
  | [] => [k]
  | a :: rest => if k < a then k :: a :: rest else a :: insAsc k rest

/-- The ascending insertion sort of `thisrow`. -/
def sortAsc (l : List ℕ) : List ℕ :=
  l.foldl (fun acc k => insAsc k acc) []

/-- Row emitted in round `r` (lines 216-228): the `r`-th position of every bin
that still has one, in bin order, then sorted ascending by position. -/
def roundRow (assign : ℕ → ℕ) (N nbins r : ℕ) : List ℕ :=
  sortAsc ((List.range nbins).filterMap (fun b => (binListPos assign N b).get? r))

/-- `uniform_order` as a list of positions into the order list: the
concatenation of all rounds (lines 216-231). -/
def uniformPositions (assign : ℕ → ℕ) (N nbins : ℕ) : List ℕ :=
  ((List.range (maxBinLen assign N nbins)).map (roundRow assign N nbins)).flatten

/-- The uniformize step (lines 162-244) applied to an order list `ord`:
when the bounding box has positive width and height, reorder by round-robin
over the `NX * NY` grid; otherwise leave the order unchanged. -/
def uniformize (stars : List Star) (ord : List ℕ) : List ℕ :=
  let N := ord.length
  let bb := bboxFold stars ord
  let Wf := qsub bb.2.1 bb.1
  let Hf := qsub bb.2.2.2 bb.2.2.1
  if qlt 0 Wf ∧ qlt 0 Hf then
    let NX := computeNX Wf Hf
    let NY := computeNY NX
    let assign := fun i => starBin bb.1 bb.2.2.1 Wf Hf NX NY (star stars (ord.getD i 0))
    (uniformPositions assign N (NX * NY)).map (fun i => ord.getD i 0)
  else ord

/-- The full Star Orderer: interleaved brightness order, then uniformisation;
result is a list of star indices into the detected list. -/
def ordererIndices (stars : List Star) : List ℕ :=
  uniformize stars (outputOrder stars)

/-- The full Star Orderer as a list of stars. -/
def ordererOutput (stars : List Star) : List Star :=
  (ordererIndices stars).map (star stars)

/-- The bounding box the orderer computes for its own interleaved order
(lines 163-171 applied at the `detectStarsNative` call site). -/
def ordererBBox (stars : List Star) : ℚ × ℚ × ℚ × ℚ :=
  bboxFold stars (outputOrder stars)

/-- Width of the orderer bounding box (line 172). -/
def ordererW (stars : List Star) : ℚ :=
  qsub (ordererBBox stars).2.1 (ordererBBox stars).1

/-- Height of the orderer bounding box (line 173). -/
def ordererH (stars : List Star) : ℚ :=
  qsub (ordererBBox stars).2.2.2 (ordererBBox stars).2.2.1

/-- The orderer grid width `NX` (lines 177-178). -/
def ordererNX (stars : List Star) : ℕ :=
  computeNX (ordererW stars) (ordererH stars)

/-- The orderer grid height `NY` (lines 179-180). -/
def ordererNY (stars : List Star) : ℕ :=
  computeNY (ordererNX stars)

/-- The number of grid bins of the orderer's uniformisation step. -/
def ordererNbins (stars : List Star) : ℕ :=
  ordererNX stars * ordererNY stars

/-- The grid bin of star `s` on the orderer's uniformisation grid
(lines 188-196). -/
def ordererBinOf (stars : List Star) (s : ℕ) : ℕ :=
  starBin (ordererBBox stars).1 (ordererBBox stars).2.2.1 (ordererW stars)
    (ordererH stars) (ordererNX stars) (ordererNY stars) (star stars s)

/-- Result shaping of `detectStarsNative` (lines 83-87 and 246-272).
`resultCode` and `peaks` stand for the outcome of the embedded `image2xy_run`
detector, which is part of the linked astrometry library, not of this
repository's sources.  The C function returns `NULL` when `result != 0` or
`npeaks == 0`; otherwise it returns the reordered `(x, y, flux)` triples. -/
def detectStarsNative (resultCode : ℤ) (peaks : List Star) :
    Option (List (ℚ × ℚ × ℚ)) :=
  if resultCode ≠ 0 ∨ peaks.length = 0 then none
  else some ((ordererIndices peaks).map
    (fun s => ((star peaks s).x, (star peaks s).y, (star peaks s).flux)))

/-! Part A continued: the depth-iteration loop of `solveFieldNative`
(`astrometry_jni.c` lines 368-448).  The embedded solver (`solver_run` and
friends) is part of the linked astrometry library, not of this repository's
sources; it is abstracted as an oracle `solves startobj endobj` telling
whether the depth window `[startobj, endobj)` produces a kept match, plus the
WCS numbers of the best match used on success. -/

/-- The default depth schedule (lines 371-372). -/
def depths : List ℕ :=
  List.range' 10 20 10

/-- Tangent-plane WCS data of the best match, as read out on success
(lines 417-435). -/
structure TanWcs where
  crval1 : ℚ
  crval2 : ℚ
  crpix1 : ℚ
  crpix2 : ℚ
  cd11 : ℚ
  cd12 : ℚ
  cd21 : ℚ
  cd22 : ℚ
  pixscale : ℚ
  rotation : ℚ
  logodds : ℚ
deriving DecidableEq, Inhabited

/-- The depth-iteration loop (lines 377-411): returns the list of attempted
windows `(startobj, endobj)` in order, and whether the field was solved.
Mirrors the C loop: `startobj = lasthi`, break when `startobj >= numStars`,
`endobj` clamped to `numStars`, stop on the first solving window. -/
def depthLoop (numStars : ℕ) (solves : ℕ → ℕ → Bool) :
    List ℕ → ℕ → List (ℕ × ℕ) → List (ℕ × ℕ) × Bool
  | [], _, acc => (acc.reverse, false)
  | d :: rest, lasthi, acc =>
    let startobj := lasthi
    if numStars ≤ startobj then (acc.reverse, false)
    else
      let endobj := min d numStars
      if solves startobj endobj then (((startobj, endobj) :: acc).reverse, true)
      else depthLoop numStars solves rest d ((startobj, endobj) :: acc)

/-- The windows attempted by `solveFieldNative` together with the solved flag. -/
def solveWindows (numStars : ℕ) (solves : ℕ → ℕ → Bool) : List (ℕ × ℕ) × Bool :=
  depthLoop numStars solves depths 0 []

/-- The 12-value result tuple of `solveFieldNative` (lines 413-443):
`[solved, ra, dec, crpixX, crpixY, cd11, cd12, cd21, cd22, pixelScale,
rotation, logOdds]`, all zero when not solved. -/
def solveFieldResult (numStars : ℕ) (solves : ℕ → ℕ → Bool) (mo : TanWcs) :
    List ℚ :=
  if (solveWindows numStars solves).2 then
    [1, mo.crval1, mo.crval2, mo.crpix1, mo.crpix2, mo.cd11, mo.cd12,
     mo.cd21, mo.cd22, mo.pixscale, mo.rotation, mo.logodds]
  else
    List.replicate 12 0

/-! Part B: `stacking_jni.c` - triangle matching, RANSAC affine alignment and
the stacking accumulator. -/

/-- Exact representation of a value of the form `sqrtf radicand` with
`0 ≤ radicand` (every square root the stacking code takes is of a squared
distance or of a mean of squared distances).  All comparisons the C code
performs on such values are decided exactly on the radicands. -/
structure SqrtQ where
  radicand : ℚ
deriving DecidableEq, Inhabited, Repr

/-- Comparison `√a < √b`, exact on nonnegative radicands. -/
def SqrtQ.ltv (a b : SqrtQ) : Prop :=
  qlt a.radicand b.radicand

instance (a b : SqrtQ) : Decidable (a.ltv b) := by
  unfold SqrtQ.ltv; infer_instance

/-- Comparison `√a < c` against a rational constant (false for `c ≤ 0`). -/
def SqrtQ.ltc (a : SqrtQ) (c : ℚ) : Prop :=
  qlt 0 c ∧ qlt a.radicand (qmul c c)

instance (a : SqrtQ) (c : ℚ) : Decidable (a.ltc c) := by
  unfold SqrtQ.ltc; infer_instance

/-- Decision of `√x < √y + t` for `0 ≤ x`, `0 ≤ y`, `0 < t`: equivalent to
`x - y - t² < 2t√y`, i.e. to the disjunction below. -/
def sqrtLtSqrtAdd (x y t : ℚ) : Prop :=
  qlt (qsub (qsub x y) (qmul t t)) 0 ∨
    qlt (qmul (qsub (qsub x y) (qmul t t)) (qsub (qsub x y) (qmul t t)))
      (qmul (qmul 4 (qmul t t)) y)

instance (x y t : ℚ) : Decidable (sqrtLtSqrtAdd x y t) := by
  unfold sqrtLtSqrtAdd; infer_instance

/-- Decision of `|√a - √b| < t` (for `0 < t` and nonnegative radicands), the
comparison `fabsf(r1 - r2) < tol` performed on triangle ratios. -/
def SqrtQ.absDiffLt (a b : SqrtQ) (t : ℚ) : Prop :=
  sqrtLtSqrtAdd a.radicand b.radicand t ∧ sqrtLtSqrtAdd b.radicand a.radicand t

instance (a b : SqrtQ) (t : ℚ) : Decidable (a.absDiffLt b t) := by
  unfold SqrtQ.absDiffLt; infer_instance

/-- An `[x, y, flux]` star triple of the flat JNI star arrays. -/
structure P3 where
  x : ℚ
  y : ℚ
  flux : ℚ
deriving DecidableEq, Inhabited, Repr

/-- Star lookup in a flat star array (`stars[i*3]`, `stars[i*3+1]`). -/
def pstar (stars : List P3) (i : ℕ) : P3 :=
  stars.getD i default

/-- Squared Euclidean distance (`dist2`, `stacking_jni.c` lines 71-75). -/
def dist2 (x1 y1 x2 y2 : ℚ) : ℚ :=
  qadd (qmul (qsub x2 x1) (qsub x2 x1)) (qmul (qsub y2 y1) (qsub y2 y1))

/-- Triangle descriptor (lines 29-33): two scale-invariant side ratios and
the three member stars in canonical order. -/
structure Triangle where
  ratio1 : SqrtQ
  ratio2 : SqrtQ
  idx0 : ℕ
  idx1 : ℕ
  idx2 : ℕ
deriving DecidableEq, Inhabited, Repr

/-- Affine transform (lines 44-47). -/
structure Affine where
  a : ℚ
  b : ℚ
  c : ℚ
  d : ℚ
  tx : ℚ
  ty : ℚ
deriving DecidableEq, Inhabited, Repr

/-- `apply_affine` (lines 85-89). -/
def applyAffine (aff : Affine) (x y : ℚ) : ℚ × ℚ :=
  (qadd (qadd (qmul aff.a x) (qmul aff.b y)) aff.tx,
   qadd (qadd (qmul aff.c x) (qmul aff.d y)) aff.ty)

/-- `invert_affine` (lines 91-103): `none` when `|det| < 1e-10`. -/
def invertAffine (aff : Affine) : Option Affine :=
  let det := qsub (qmul aff.a aff.d) (qmul aff.b aff.c)
  if qlt (qabs det) (mkRat 1 10000000000) then none
  else some ⟨qdiv aff.d det, qdiv (qneg aff.b) det, qdiv (qneg aff.c) det,
    qdiv aff.a det,
    qdiv (qsub (qmul aff.b aff.ty) (qmul aff.d aff.tx)) det,
    qdiv (qsub (qmul aff.c aff.tx) (qmul aff.a aff.ty)) det⟩

/-- One step of the ascending insertion sort of the `(side, opposite-vertex)`
pairs (lines 189-196), comparing `sqrtf` side lengths, stable for ties. -/
def insSide (k : SqrtQ × ℕ) : List (SqrtQ × ℕ) → List (SqrtQ × ℕ)
  | [] => [k]
  | p :: rest => if k.1.ltv p.1 then k :: p :: rest else p :: insSide k rest

/-- The 3-element insertion sort of lines 189-196 (works for any length). -/
def sortSides (l : List (SqrtQ × ℕ)) : List (SqrtQ × ℕ) :=
  l.foldl (fun acc k => insSide k acc) []

/-- Body of the triangle-forming loop (lines 167-205) for the triangle
`(i, ia, ib)`: side lengths `sa = |i ia|`, `sb = |i ib|`, `sc = |ia ib|`,
each opposite the remaining vertex; `none` when any side is below `1e-6`
(the `continue`); otherwise the canonical descriptor after sorting the
`(side, vertex)` pairs by side length. -/
def mkTriangle (stars : List P3) (i ia ib : ℕ) : Option Triangle :=
  let pI := pstar stars i
  let pA := pstar stars ia
  let pB := pstar stars ib
  let sa : SqrtQ := ⟨dist2 pI.x pI.y pA.x pA.y⟩
  let sb : SqrtQ := ⟨dist2 pI.x pI.y pB.x pB.y⟩
  let sc : SqrtQ := ⟨dist2 pA.x pA.y pB.x pB.y⟩
  if sa.ltc (mkRat 1 1000000) ∨ sb.ltc (mkRat 1 1000000) ∨
      sc.ltc (mkRat 1 1000000) then none
  else
    let sorted := sortSides [(sa, ib), (sb, ia), (sc, i)]
    let q0 := sorted.getD 0 default
    let q1 := sorted.getD 1 default
    let q2 := sorted.getD 2 default
    some ⟨⟨qdiv q1.1.radicand q0.1.radicand⟩, ⟨qdiv q2.1.radicand q0.1.radicand⟩,
      q0.2, q1.2, q2.2⟩

/-- One step of the ascending insertion sort of neighbours by squared
distance (lines 149-157), stable for ties. -/
def insNbr (k : ℚ × ℕ) : List (ℚ × ℕ) → List (ℚ × ℕ)
  | [] => [k]
  | p :: rest => if qlt k.1 p.1 then k :: p :: rest else p :: insNbr k rest

/-- The neighbour insertion sort of lines 149-157. -/
def sortNbrs (l : List (ℚ × ℕ)) : List (ℚ × ℕ) :=
  l.foldl (fun acc k => insNbr k acc) []

/-- Neighbour candidates of star `i` (lines 138-157): all `j ≠ i` below
`maxUse` with their squared distances, sorted ascending. -/
def neighborsOf (stars : List P3) (maxUse i : ℕ) : List (ℚ × ℕ) :=
  sortNbrs (((List.range maxUse).filter (fun j => j ≠ i)).map
    (fun j => (dist2 (pstar stars i).x (pstar stars i).y
      (pstar stars j).x (pstar stars j).y, j)))

/-- All index pairs `(l[a], l[b])` with `a < b`, in the loop order of
lines 163-164. -/
def pairsOf : List ℕ → List (ℕ × ℕ)
  | [] => []
  | x :: rest => rest.map (fun y => (x, y)) ++ pairsOf rest

/-- Triangles contributed by star `i`: one per pair of its 5 nearest
neighbours, skipping degenerate ones. -/
def trianglesFor (stars : List P3) (maxUse i : ℕ) : List Triangle :=
  let nbrs := ((neighborsOf stars maxUse i).take 5).map Prod.snd
  (pairsOf nbrs).filterMap (fun p => mkTriangle stars i p.1 p.2)

/-- `form_triangles` (lines 111-212): `none` when fewer than 3 stars (the C
function returns `NULL`).  The `tri_idx >= max_triangles` break is embedded
as a `take`; since each star contributes at most `C(5,2) = 10` triangles the
cap `maxUse * 10` is in fact never exceeded. -/
def formTriangles (stars : List P3) : Option (List Triangle) :=
  if stars.length < 3 then none
  else
    let maxUse := min stars.length 50
    some ((((List.range maxUse).map (trianglesFor stars maxUse)).flatten).take
      (maxUse * 10))

/-- A star correspondence (lines 36-39). -/
structure Corr where
  refX : ℚ
  refY : ℚ
  newX : ℚ
  newY : ℚ
deriving DecidableEq, Inhabited, Repr

/-- Ratio agreement of two triangles within `TRIANGLE_RATIO_TOLERANCE = 0.01`
(lines 241-243). -/
def ratiosMatch (tn tr : Triangle) : Prop :=
  tn.ratio1.absDiffLt tr.ratio1 (mkRat 1 100) ∧
    tn.ratio2.absDiffLt tr.ratio2 (mkRat 1 100)

instance (tn tr : Triangle) : Decidable (ratiosMatch tn tr) := by
  unfold ratiosMatch; infer_instance

/-- The three correspondences emitted for a matched triangle pair
(lines 246-257), one per canonical vertex. -/
def corr3 (tn tr : Triangle) (newStars refStars : List P3) : List Corr :=
  [⟨(pstar refStars tr.idx0).x, (pstar refStars tr.idx0).y,
    (pstar newStars tn.idx0).x, (pstar newStars tn.idx0).y⟩,
   ⟨(pstar refStars tr.idx1).x, (pstar refStars tr.idx1).y,
    (pstar newStars tn.idx1).x, (pstar newStars tn.idx1).y⟩,
   ⟨(pstar refStars tr.idx2).x, (pstar refStars tr.idx2).y,
    (pstar newStars tn.idx2).x, (pstar newStars tn.idx2).y⟩]

/-- `match_triangles` (lines 219-266): new triangles outer, reference
triangles inner, 3 correspondences per ratio match, capped at
`min(num_ref*num_new*3, 10000)` (the mid-loop `break` is the `take`). -/
def matchTriangles (refTri : List Triangle) (refStars : List P3)
    (newTri : List Triangle) (newStars : List P3) : List Corr :=
  let maxCorr := min (refTri.length * newTri.length * 3) 10000
  ((newTri.map (fun tn =>
    (refTri.map (fun tr =>
      if ratiosMatch tn tr then corr3 tn tr newStars refStars else [])).flatten)).flatten).take
    maxCorr

/-- 3 by 3 determinant helper for the Cramer solution below. -/
def det3 (a1 a2 a3 b1 b2 b3 c1 c2 c3 : ℚ) : ℚ :=
  qadd (qsub (qmul a1 (qsub (qmul b2 c3) (qmul b3 c2)))
    (qmul a2 (qsub (qmul b1 c3) (qmul b3 c1))))
    (qmul a3 (qsub (qmul b1 c2) (qmul b2 c1)))

/-- Model of `solve_affine_3pt` (lines 273-353).  The 6 by 6 linear system
built by the C code block-decouples into two 3 by 3 systems sharing the
coefficient matrix with rows `(new_x_i, new_y_i, 1)`; in exact arithmetic the
GSL LU decomposition and solve yield the unique solution exactly when that
matrix is invertible, written here by Cramer's rule. -/
def solveAffine3pt (c0 c1 c2 : Corr) : Option Affine :=
  let dd := det3 c0.newX c0.newY 1 c1.newX c1.newY 1 c2.newX c2.newY 1
  if dd = 0 then none
  else some
    ⟨qdiv (det3 c0.refX c0.newY 1 c1.refX c1.newY 1 c2.refX c2.newY 1) dd,
     qdiv (det3 c0.newX c0.refX 1 c1.newX c1.refX 1 c2.newX c2.refX 1) dd,
     qdiv (det3 c0.refY c0.newY 1 c1.refY c1.newY 1 c2.refY c2.newY 1) dd,
     qdiv (det3 c0.newX c0.refY 1 c1.newX c1.refY 1 c2.newX c2.refY 1) dd,
     qdiv (det3 c0.newX c0.newY c0.refX c1.newX c1.newY c1.refX
       c2.newX c2.newY c2.refX) dd,
     qdiv (det3 c0.newX c0.newY c0.refY c1.newX c1.newY c1.refY
       c2.newX c2.newY c2.refY) dd⟩

/-- `evaluate_affine` (lines 355-376): inlier count (reprojection error below
`RANSAC_INLIER_THRESHOLD = 3.0`) and RMS error `√(Σ error² / n)`.  The C code
squares the `sqrtf` of the squared distance, which in exact arithmetic is the
squared distance itself. -/
def evaluateAffine (aff : Affine) (corr : List Corr) : ℕ × SqrtQ :=
  let acc := corr.foldl (fun (acc : ℕ × ℚ) cr =>
    let pr := applyAffine aff cr.newX cr.newY
    let e2 := dist2 pr.1 pr.2 cr.refX cr.refY
    (if SqrtQ.ltc ⟨e2⟩ 3 then acc.1 + 1 else acc.1, qadd acc.2 e2)) (0, 0)
  (acc.1, if 0 < corr.length then ⟨qdiv acc.2 (corr.length : ℚ)⟩ else ⟨0⟩)

/-- One sample-index draw (lines 395-410): repeatedly draw `rand() % n` until
the value is not among the previously drawn indices, giving up after 10
retries (the C code then keeps the duplicate).  `rng` is the stream of
`rand()` values, `pos` the number of values consumed so far, `fuel` the
remaining retries. -/
def drawIdx (rng : ℕ → ℕ) (n : ℕ) (prev : List ℕ) : ℕ → ℕ → ℕ × ℕ
  | pos, fuel =>
    let r := rng pos % n
    if r ∈ prev then
      match fuel with
      | 0 => (r, pos + 1)
      | fuel' + 1 => drawIdx rng n prev (pos + 1) fuel'
    else (r, pos + 1)

/-- The three index draws of one RANSAC iteration (lines 393-412). -/
def draw3 (rng : ℕ → ℕ) (n pos : ℕ) : (ℕ × ℕ × ℕ) × ℕ :=
  let d0 := drawIdx rng n [] pos 10
  let d1 := drawIdx rng n [d0.1] d0.2 10
  let d2 := drawIdx rng n [d0.1, d1.1] d1.2 10
  ((d0.1, d1.1, d2.1), d2.2)

/-- The RANSAC iteration loop (lines 391-431), carrying the consumed-stream
position and the best `(affine, inliers, rms)` so far.  The comparison
`rms < best_rms` on `sqrtf` values is exact on radicands. -/
def ransacLoop (corr : List Corr) (rng : ℕ → ℕ) :
    ℕ → ℕ → Affine × ℕ × SqrtQ → Affine × ℕ × SqrtQ
  | 0, _, best => best
  | iters + 1, pos, best =>
    let dr := draw3 rng corr.length pos
    let s0 := corr.getD dr.1.1 default
    let s1 := corr.getD dr.1.2.1 default
    let s2 := corr.getD dr.1.2.2 default
    let best' :=
      match solveAffine3pt s0 s1 s2 with
      | none => best
      | some aff =>
        let ev := evaluateAffine aff corr
        if best.2.1 < ev.1 ∨ (ev.1 = best.2.1 ∧ qlt ev.2.radicand best.2.2.radicand)
        then (aff, ev.1, ev.2) else best
    ransacLoop corr rng iters dr.2 best'

/-- `ransac_affine` (lines 379-444): `none` for fewer than 3 correspondences
or zero best inliers after `RANSAC_ITERATIONS = 500` iterations.  Initial
best is 0 inliers with `best_rms = 1e9` (radicand `1e18`); the C `best`
affine is uninitialised until the first update and never returned when the
inlier count stays 0, modelled by the zero affine. -/
def ransacAffine (corr : List Corr) (rng : ℕ → ℕ) :
    Option (Affine × ℕ × SqrtQ) :=
  if corr.length < 3 then none
  else
    let final := ransacLoop corr rng 500 0
      (⟨0, 0, 0, 0, 0, 0⟩, 0, ⟨mkRat 1000000000000000000 1⟩)
    if final.2.1 = 0 then none else some final

/-- `bilinear_sample` (lines 451-473). -/
def bilinearSample (image : List ℕ) (width height : ℕ) (x y : ℚ) : ℚ :=
  if qlt x 0 ∨ qlt y 0 ∨ qle (qsub (width : ℚ) 1) x ∨
      qle (qsub (height : ℚ) 1) y then 0
  else
    let x0 := (truncQ x).toNat
    let y0 := (truncQ y).toNat
    let fx := qsub x (x0 : ℚ)
    let fy := qsub y (y0 : ℚ)
    let v00 : ℚ := (image.getD (y0 * width + x0) 0 : ℕ)
    let v10 : ℚ := (image.getD (y0 * width + (x0 + 1)) 0 : ℕ)
    let v01 : ℚ := (image.getD ((y0 + 1) * width + x0) 0 : ℕ)
    let v11 : ℚ := (image.getD ((y0 + 1) * width + (x0 + 1)) 0 : ℕ)
    let v0 := qadd (qmul v00 (qsub 1 fx)) (qmul v10 fx)
    let v1 := qadd (qmul v01 (qsub 1 fx)) (qmul v11 fx)
    qadd (qmul v0 (qsub 1 fy)) (qmul v1 fy)

/-- The stacking context (lines 49-64).  `refTriangles = none` models the
`NULL` pointer. -/
structure StackCtx where
  width : ℕ
  height : ℕ
  isColor : Bool
  frameCount : ℕ
  sumR : List ℚ
  count : List ℕ
  refTriangles : Option (List Triangle)
  refStars : List P3
deriving DecidableEq, Inhabited, Repr

/-- `initStackingNative` (lines 515-561): zeroed accumulator buffers, no
reference frame yet. -/
def initStackingNative (width height : ℕ) (isColor : Bool) : StackCtx :=
  ⟨width, height, isColor, 0, List.replicate (width * height) 0,
   List.replicate (width * height) 0, none, []⟩

/-- The in-bounds test of the warp loop (line 498):
`src_x >= 0 && src_y >= 0 && src_x < width-1 && src_y < height-1` for the
pixel `idx = y*width + x`. -/
def warpInB (inv : Affine) (W H idx : ℕ) : Prop :=
  let src := applyAffine inv ((idx % W : ℕ) : ℚ) ((idx / W : ℕ) : ℚ)
  qle 0 src.1 ∧ qle 0 src.2 ∧ qlt src.1 (qsub (W : ℚ) 1) ∧
    qlt src.2 (qsub (H : ℚ) 1)

instance (inv : Affine) (W H idx : ℕ) : Decidable (warpInB inv W H idx) := by
  unfold warpInB; infer_instance

/-- The sampled value added at pixel `idx` by the warp loop (line 499). -/
def warpVal (image : List ℕ) (inv : Affine) (W H idx : ℕ) : ℚ :=
  let src := applyAffine inv ((idx % W : ℕ) : ℚ) ((idx / W : ℕ) : ℚ)
  bilinearSample image W H src.1 src.2

/-- `warp_and_accumulate` (lines 476-507): on a non-invertible affine the
function logs and returns with the context untouched (in particular
`frame_count` is not incremented); otherwise every reference pixel whose
inverse-mapped position is in bounds receives the bilinear sample, and
`frame_count` is incremented. -/
def warpAndAccumulate (ctx : StackCtx) (image : List ℕ) (aff : Affine) :
    StackCtx :=
  match invertAffine aff with
  | none => ctx
  | some inv =>
    let npix := ctx.width * ctx.height
    { ctx with
      sumR := (List.range npix).map (fun idx =>
        if warpInB inv ctx.width ctx.height idx then
          qadd (ctx.sumR.getD idx 0) (warpVal image inv ctx.width ctx.height idx)
        else ctx.sumR.getD idx 0),
      count := (List.range npix).map (fun idx =>
        if warpInB inv ctx.width ctx.height idx then ctx.count.getD idx 0 + 1
        else ctx.count.getD idx 0),
      frameCount := ctx.frameCount + 1 }

/-- The 4-value result tuple of `addFrameNative`:
`(ok, inlierCount, rmsPx, frameCount)`. -/
structure AddRes where
  ok : ℕ
  inliers : ℕ
  rms : SqrtQ
  frames : ℕ
deriving DecidableEq, Inhabited, Repr

/-- `addFrameNative` (lines 563-723).  `pixels` is the byte image, `stars`
the `[x, y, flux]` triples of the new frame, `rng` the stream of `rand()`
values consumed by RANSAC.  Returns the updated context and the result
tuple; `none` models the C function returning `NULL` (reference-triangle
formation failure on the first frame). -/
def addFrameNative (ctx : StackCtx) (pixels : List ℕ) (stars : List P3)
    (rng : ℕ → ℕ) : StackCtx × Option AddRes :=
  if ctx.frameCount = 0 then
    let refStars := stars.take (min stars.length 50)
    let ctx1 := { ctx with refStars := refStars }
    match formTriangles refStars with
    | none => ({ ctx1 with refTriangles := none }, none)
    | some tris =>
      let npix := ctx.width * ctx.height
      (({ ctx1 with
          refTriangles := some tris,
          sumR := (List.range npix).map
            (fun i => qadd (ctx.sumR.getD i 0) ((pixels.getD i 0 : ℕ) : ℚ)),
          count := (List.range npix).map (fun i => ctx.count.getD i 0 + 1),
          frameCount := ctx.frameCount + 1 } : StackCtx),
       some ⟨1, 0, ⟨0⟩, 1⟩)
  else
    match formTriangles (stars.take (min stars.length 50)) with
    | none => (ctx, some ⟨0, 0, ⟨0⟩, ctx.frameCount⟩)
    | some newTri =>
      if newTri.length = 0 then (ctx, some ⟨0, 0, ⟨0⟩, ctx.frameCount⟩)
      else
        let corr := matchTriangles (ctx.refTriangles.getD []) ctx.refStars
          newTri stars
        if corr.length < 3 then (ctx, some ⟨0, 0, ⟨0⟩, ctx.frameCount⟩)
        else
          match ransacAffine corr rng with
          | none => (ctx, some ⟨0, 0, ⟨0⟩, ctx.frameCount⟩)
          | some best =>
            let ctx' := warpAndAccumulate ctx pixels best.1
            (ctx', some ⟨1, best.2.1, best.2.2, ctx'.frameCount⟩)

/-- `getStackedImageNative` (lines 725-772): `none` models the `NULL` return
when no frame has been stacked yet; otherwise per pixel the truncated
`sum/count + 0.5`, clamped below at 0 then above at 255, or 0 where the
count is zero. -/
def getStackedImageNative (ctx : StackCtx) : Option (List ℕ) :=
  if ctx.frameCount = 0 then none
  else
    some ((List.range (ctx.width * ctx.height)).map (fun i =>
      let c := ctx.count.getD i 0
      if 0 < c then
        let avg := qdiv (ctx.sumR.getD i 0) (c : ℚ)
        let val : ℤ := truncQ (qadd avg (mkRat 1 2))
        let val1 := if val < 0 then 0 else val
        let val2 := if 255 < val1 then 255 else val1
        val2.toNat
      else 0))

/-- `getFrameCountNative` (lines 774-785). -/
def getFrameCountNative (ctx : StackCtx) : ℕ :=
  ctx.frameCount

/-- Squared length of the side opposite vertex `v` in the triangle built from
stars `i`, `ia`, `ib` (for `v` one of the three): the quantity whose square
root the C code sorts by. -/
def oppSide2 (stars : List P3) (i ia ib v : ℕ) : ℚ :=
  if v = i then dist2 (pstar stars ia).x (pstar stars ia).y
    (pstar stars ib).x (pstar stars ib).y
  else if v = ia then dist2 (pstar stars i).x (pstar stars i).y
    (pstar stars ib).x (pstar stars ib).y
  else dist2 (pstar stars i).x (pstar stars i).y
    (pstar stars ia).x (pstar stars ia).y

/-! Concrete test data used by the witnesses and counterexamples below. -/

/-- 17 stars on a `[0,99]²` field: nine crowded into the top-left bin of the
3 by 3 uniformisation grid, one in each of the other eight bins. -/
def starsC3 : List Star :=
  [⟨0, 0, 100, 0⟩, ⟨1, 0, 99, 0⟩, ⟨2, 0, 98, 0⟩, ⟨3, 0, 97, 0⟩, ⟨4, 0, 96, 0⟩,
   ⟨5, 0, 95, 0⟩, ⟨6, 0, 94, 0⟩, ⟨7, 0, 93, 0⟩, ⟨8, 0, 92, 0⟩,
   ⟨50, 0, 91, 0⟩, ⟨99, 0, 90, 0⟩,
   ⟨0, 50, 89, 0⟩, ⟨50, 50, 88, 0⟩, ⟨99, 50, 87, 0⟩,
   ⟨0, 99, 86, 0⟩, ⟨50, 99, 85, 0⟩, ⟨99, 99, 84, 0⟩]

/-- 18 stars, two per bin of the 3 by 3 uniformisation grid (witness data for
the amended prefix-uniformity statement). -/
def starsC3w : List Star :=
  [⟨0, 0, 100, 0⟩, ⟨10, 10, 99, 0⟩, ⟨50, 0, 98, 0⟩, ⟨60, 10, 97, 0⟩,
   ⟨99, 0, 96, 0⟩, ⟨90, 10, 95, 0⟩,
   ⟨0, 50, 94, 0⟩, ⟨10, 60, 93, 0⟩, ⟨50, 50, 92, 0⟩, ⟨60, 60, 91, 0⟩,
   ⟨99, 50, 90, 0⟩, ⟨90, 60, 89, 0⟩,
   ⟨0, 99, 88, 0⟩, ⟨10, 90, 87, 0⟩, ⟨50, 99, 86, 0⟩, ⟨60, 90, 85, 0⟩,
   ⟨99, 99, 84, 0⟩, ⟨90, 90, 83, 0⟩]

/-- Two stars whose flux order and raw-signal order coincide (and with zero
bounding-box width, so uniformisation is skipped). -/
def starsC4 : List Star :=
  [⟨0, 0, 10, 0⟩, ⟨0, 5, 5, 0⟩]

/-- An isoceles triangle: two sides of equal length 5, base 8. -/
def starsC6 : List P3 :=
  [⟨0, 0, 5⟩, ⟨3, 4, 4⟩, ⟨3, -4, 3⟩]

/-- A scalene right triangle with sides 3, 4, 5. -/
def starsC6w : List P3 :=
  [⟨0, 0, 5⟩, ⟨3, 0, 4⟩, ⟨0, 4, 3⟩]

/-- Reference-frame stars for the degenerate-alignment scenario: three
collinear stars on the x axis. -/
def refStarsC5 : List P3 :=
  [⟨0, 0, 9⟩, ⟨1, 0, 8⟩, ⟨2, 0, 7⟩]

/-- Second-frame stars: a nearly flat triangle whose side ratios match the
flat reference triangles within the 0.01 tolerance. -/
def newStarsC5 : List P3 :=
  [⟨0, 0, 9⟩, ⟨2, 0, 8⟩, ⟨1, mkRat 1 20, 7⟩]

/-- Accumulator after stacking the first (reference) frame of the
degenerate-alignment scenario on a 2 by 1 image. -/
def ctxC5 : StackCtx :=
  (addFrameNative (initStackingNative 2 1 false) [5, 5] refStarsC5 (fun n => n)).1

/-- The three descriptors the aligner forms for `newStarsC5` (each star with
its two neighbours, all ratio-compatible with the flat reference triangles). -/
def triC5 : List Triangle :=
  [⟨⟨1⟩, ⟨mkRat 1600 401⟩, 1, 0, 2⟩,
   ⟨⟨1⟩, ⟨mkRat 1600 401⟩, 0, 1, 2⟩,
   ⟨⟨1⟩, ⟨mkRat 1600 401⟩, 1, 0, 2⟩]

/-- An accumulator state with one stacked frame, used by witnesses:
`sum = [3, 0]`, `count = [2, 0]`. -/
def ctxC9 : StackCtx :=
  ⟨2, 1, false, 1, [3, 0], [2, 0], none, []⟩

/-! Theorems.  First the bridge lemmas identifying the computable mirrors
with the Mathlib field operations on `ℚ`. -/

theorem mkRat_eq_div' (n : ℤ) (d : ℕ) : mkRat n d = (n : ℚ) / (d : ℚ) := by
  rw [Rat.mkRat_eq_divInt, Rat.divInt_eq_div]
  norm_cast

theorem qadd_eq (a b : ℚ) : qadd a b = a + b := by
  unfold qadd
  rw [mkRat_eq_div']
  conv_rhs => rw [← Rat.num_div_den a, ← Rat.num_div_den b]
  rw [div_add_div _ _ (by exact_mod_cast a.den_nz) (by exact_mod_cast b.den_nz)]
  push_cast
  ring_nf

theorem qneg_eq (a : ℚ) : qneg a = -a := by
  unfold qneg
  rw [mkRat_eq_div']
  conv_rhs => rw [← Rat.num_div_den a]
  push_cast
  ring

theorem qsub_eq (a b : ℚ) : qsub a b = a - b := by
  unfold qsub
  rw [qadd_eq, qneg_eq, sub_eq_add_neg]

theorem qmul_eq (a b : ℚ) : qmul a b = a * b := by
  unfold qmul
  rw [mkRat_eq_div']
  conv_rhs => rw [← Rat.num_div_den a, ← Rat.num_div_den b]
  rw [div_mul_div_comm]
  push_cast
  ring_nf

theorem qinv_eq (a : ℚ) : qinv a = a⁻¹ := by
  unfold qinv
  split_ifs with h
  · rw [mkRat_eq_div']
    conv_rhs => rw [← Rat.num_div_den a]
    rw [inv_div]
    rw [show ((a.num.toNat : ℕ) : ℚ) = ((a.num : ℤ) : ℚ) by
      exact_mod_cast congrArg (fun z : ℤ => (z : ℚ)) (Int.toNat_of_nonneg h)]
    norm_cast
  · rw [qneg_eq, mkRat_eq_div']
    conv_rhs => rw [← Rat.num_div_den a]
    rw [inv_div]
    rw [show (((-a.num).toNat : ℕ) : ℚ) = ((-a.num : ℤ) : ℚ) by
      exact_mod_cast congrArg (fun z : ℤ => (z : ℚ))
        (Int.toNat_of_nonneg (by omega : (0 : ℤ) ≤ -a.num))]
    push_cast
    ring

theorem qdiv_eq (a b : ℚ) : qdiv a b = a / b := by
  unfold qdiv
  rw [qmul_eq, qinv_eq, div_eq_mul_inv]

theorem qlt_iff (a b : ℚ) : qlt a b ↔ a < b := by
  unfold qlt
  conv_rhs => rw [← Rat.num_div_den a, ← Rat.num_div_den b]
  rw [div_lt_div_iff₀ (by exact_mod_cast a.pos) (by exact_mod_cast b.pos)]
  constructor
  · intro h; exact_mod_cast h
  · intro h; exact_mod_cast h

theorem qle_iff (a b : ℚ) : qle a b ↔ a ≤ b := by
  unfold qle
  conv_rhs => rw [← Rat.num_div_den a, ← Rat.num_div_den b]
  rw [div_le_div_iff₀ (by exact_mod_cast a.pos) (by exact_mod_cast b.pos)]
  constructor
  · intro h; exact_mod_cast h
  · intro h; exact_mod_cast h

theorem qabs_eq (a : ℚ) : qabs a = |a| := by
  unfold qabs
  split_ifs with h
  · rw [qneg_eq, abs_of_neg ((qlt_iff a 0).1 h)]
  · rw [abs_of_nonneg (not_lt.1 (fun hc => h ((qlt_iff a 0).2 hc)))]

theorem qfloor_eq (a : ℚ) : qfloor a = ⌊a⌋ :=
  Rat.floor_def.symm

theorem qceil_eq (a : ℚ) : qceil a = ⌈a⌉ := by
  unfold qceil
  rw [qfloor_eq, qneg_eq, ← Int.ceil_neg, neg_neg]

theorem truncQ_eq_floor {q : ℚ} (h : 0 ≤ q) : truncQ q = ⌊q⌋ := by
  unfold truncQ
  rw [if_pos ((qle_iff 0 q).mpr h), qfloor_eq]

theorem mkRat_one_two : mkRat 1 2 = (1 : ℚ) / 2 := by
  rw [mkRat_eq_div']
  norm_num

/-- Lookup in a mapped range list. -/
theorem getD_map_range {α : Type} (f : ℕ → α) (n i : ℕ) (d : α) (h : i < n) :
    ((List.range n).map f).getD i d = f i := by
  rw [List.getD_eq_getElem?_getD, List.getElem?_map, List.getElem?_range h]
  rfl

/-! Claim C1. -/

/-- Claim C1, counterexample.  The claim states that a detection run that
finds zero peaks yields a normal empty star list.  In the code
(`astrometry_jni.c` lines 83-87) `npeaks == 0` takes the same `return NULL`
path as a failed detection: the result is the error value `none`, not the
empty list. -/
theorem claim_C1_counterexample :
    detectStarsNative 0 [] = none ∧ detectStarsNative 0 [] ≠ some [] := by
  constructor
  · decide
  · decide

/-- Claim C1, amended: when detection runs and finds zero peaks, the wrapper
returns the error value `NULL` (`none`) - the same value as for a failed
detection - and not an empty star list. -/
theorem claim_C1_amended (resultCode : ℤ) (peaks : List Star)
    (h : peaks.length = 0) : detectStarsNative resultCode peaks = none := by
  unfold detectStarsNative
  rw [if_pos (Or.inr h)]

/-- Witness for `claim_C1_amended` at a concrete input. -/
theorem claim_C1_amended_witness :
    ([] : List Star).length = 0 ∧ detectStarsNative 0 [] = none :=
  ⟨rfl, claim_C1_amended 0 [] rfl⟩

/-! Claim C10. -/

/-- Claim C10.  Calling `getStackedImageNative` on an accumulator with
`frame_count = 0` returns the error value `NULL` (`none`), not the all-zero
image that the per-pixel `count = 0` rule would produce
(`stacking_jni.c` lines 737-740). -/
theorem claim_C10 (ctx : StackCtx) (h : ctx.frameCount = 0) :
    getStackedImageNative ctx = none ∧
      getStackedImageNative ctx ≠
        some (List.replicate (ctx.width * ctx.height) 0) := by
  unfold getStackedImageNative
  rw [if_pos h]
  exact ⟨rfl, by simp⟩

/-- Witness for `claim_C10` on a freshly initialised accumulator. -/
theorem claim_C10_witness :
    (initStackingNative 3 2 false).frameCount = 0 ∧
      getStackedImageNative (initStackingNative 3 2 false) = none :=
  ⟨rfl, (claim_C10 (initStackingNative 3 2 false) rfl).1⟩

/-! Claim C7. -/

/-- Claim C7.  For every affine `M` on which `invert_affine` succeeds
(`stacking_jni.c` lines 91-103) and every point `p`, applying `M` after the
computed inverse returns `p` - in exact arithmetic even with distance 0,
hence in particular within the claimed `1e-6` pixels. -/
theorem claim_C7 (M Minv : Affine) (p : ℚ × ℚ)
    (h : invertAffine M = some Minv) :
    applyAffine M (applyAffine Minv p.1 p.2).1 (applyAffine Minv p.1 p.2).2 = p ∧
      dist2 (applyAffine M (applyAffine Minv p.1 p.2).1
          (applyAffine Minv p.1 p.2).2).1
        (applyAffine M (applyAffine Minv p.1 p.2).1
          (applyAffine Minv p.1 p.2).2).2 p.1 p.2 ≤ mkRat 1 1000000000000 := by
  unfold invertAffine at h
  set det := qsub (qmul M.a M.d) (qmul M.b M.c) with hdet
  by_cases hc : qlt (qabs det) (mkRat 1 10000000000)
  · rw [if_pos hc] at h
    exact absurd h (by simp)
  · rw [if_neg hc] at h
    have hdet0 : M.a * M.d - M.b * M.c ≠ 0 := by
      intro h0
      apply hc
      rw [qlt_iff, qabs_eq, hdet, qsub_eq, qmul_eq, qmul_eq, h0, abs_zero,
        mkRat_eq_div']
      norm_num
    have hMinv := h.symm
    injection hMinv with hMinv
    have hround : applyAffine M (applyAffine Minv p.1 p.2).1
        (applyAffine Minv p.1 p.2).2 = p := by
      rw [hMinv]
      unfold applyAffine
      simp only [qadd_eq, qmul_eq, qsub_eq, qdiv_eq, qneg_eq, hdet]
      obtain ⟨p1, p2⟩ := p
      field_simp
      constructor
      · ring
      · ring
    refine ⟨hround, ?_⟩
    rw [hround]
    unfold dist2
    simp only [qadd_eq, qmul_eq, qsub_eq]
    rw [mkRat_eq_div']
    norm_num

/-- Witness for `claim_C7` at a concrete invertible affine and point. -/
theorem claim_C7_witness :
    invertAffine ⟨2, 0, 0, 1, 3, 4⟩ =
      some ⟨mkRat 1 2, 0, 0, 1, mkRat (-3) 2, -4⟩ ∧
    applyAffine ⟨2, 0, 0, 1, 3, 4⟩
        (applyAffine ⟨mkRat 1 2, 0, 0, 1, mkRat (-3) 2, -4⟩ 1 1).1
        (applyAffine ⟨mkRat 1 2, 0, 0, 1, mkRat (-3) 2, -4⟩ 1 1).2 = (1, 1) :=
  ⟨by decide,
   (claim_C7 ⟨2, 0, 0, 1, 3, 4⟩ ⟨mkRat 1 2, 0, 0, 1, mkRat (-3) 2, -4⟩ (1, 1)
     (by decide)).1⟩

/-! Claim C9. -/

/-- Claim C9.  When at least one frame has been stacked, `getStackedImage`
emits, at every pixel with a positive contributor count, the value
`round(sum/count)` (round half up) clamped to `[0, 255]`, and 0 at pixels
with count 0 (`stacking_jni.c` lines 756-766).  The hypothesis `0 ≤ sum`
holds for every reachable accumulator, whose sums are sums of nonnegative
pixel samples. -/
theorem claim_C9 (ctx : StackCtx) (i : ℕ)
    (hfc : ctx.frameCount ≠ 0) (hi : i < ctx.width * ctx.height)
    (hnn : qle 0 (ctx.sumR.getD i 0)) :
    ∃ img, getStackedImageNative ctx = some img ∧
      img.getD i 0 = (if 0 < ctx.count.getD i 0 then
        (min 255 (max 0
          (round (ctx.sumR.getD i 0 / (ctx.count.getD i 0 : ℚ))))).toNat
      else 0) := by
  refine ⟨_, by unfold getStackedImageNative; rw [if_neg hfc], ?_⟩
  rw [getD_map_range _ _ _ _ hi]
  by_cases hc : 0 < ctx.count.getD i 0
  · simp only [hc, if_true]
    have hsum : (0 : ℚ) ≤ ctx.sumR.getD i 0 := (qle_iff _ _).1 hnn
    have hcq : (0 : ℚ) < (ctx.count.getD i 0 : ℚ) := by exact_mod_cast hc
    have havg : (0 : ℚ) ≤ ctx.sumR.getD i 0 / (ctx.count.getD i 0 : ℚ) :=
      div_nonneg hsum hcq.le
    rw [qdiv_eq, qadd_eq, mkRat_one_two,
      truncQ_eq_floor (by linarith : (0:ℚ) ≤
        ctx.sumR.getD i 0 / (ctx.count.getD i 0 : ℚ) + 1 / 2),
      ← round_eq]
    set v : ℤ := round (ctx.sumR.getD i 0 / (ctx.count.getD i 0 : ℚ)) with hv
    have hv0 : 0 ≤ v := by
      rw [hv, round_eq]
      exact Int.floor_nonneg.2 (by linarith)
    rw [if_neg (not_lt.2 hv0)]
    congr 1
    omega
  · simp only [hc, if_false]

/-- Witness for `claim_C9` at a concrete stacked accumulator
(`sum = [3, 0]`, `count = [2, 0]`: pixel 0 is `round(3/2) = 2`). -/
theorem claim_C9_witness :
    ctxC9.frameCount ≠ 0 ∧ 0 < ctxC9.width * ctxC9.height ∧
      qle 0 (ctxC9.sumR.getD 0 0) ∧
      ∃ img, getStackedImageNative ctxC9 = some img ∧
        img.getD 0 0 = (if 0 < ctxC9.count.getD 0 0 then
          (min 255 (max 0
            (round (ctxC9.sumR.getD 0 0 / (ctxC9.count.getD 0 0 : ℚ))))).toNat
        else 0) :=
  ⟨by decide, by decide, by decide,
   claim_C9 ctxC9 0 (by decide) (by decide) (by decide)⟩

/-! Claim C8: helper lemmas about the depth-iteration loop. -/

/-- The accumulator of `depthLoop` is prepended (reversed) to the windows the
loop produces from an empty accumulator. -/
theorem depthLoop_acc (numStars : ℕ) (solves : ℕ → ℕ → Bool) :
    ∀ (rest : List ℕ) (lasthi : ℕ) (acc : List (ℕ × ℕ)),
      depthLoop numStars solves rest lasthi acc =
        (acc.reverse ++ (depthLoop numStars solves rest lasthi []).1,
         (depthLoop numStars solves rest lasthi []).2) := by
  intro rest
  induction rest with
  | nil => intro lasthi acc; simp [depthLoop]
  | cons d rest ih =>
    intro lasthi acc
    simp only [depthLoop]
    split_ifs with h1 h2
    · simp
    · simp
    · rw [ih d ((lasthi, min d numStars) :: acc),
        ih d [(lasthi, min d numStars)]]
      simp

/-- Shape of the attempted windows: starting the loop at `lasthi = j` with
the remaining schedule `j+10, j+20, ...`, the `i`-th attempted window is
`[j + 10*i, min (j + 10*i + 10) numStars)` and its start lies below
`numStars`. -/
theorem depthLoop_windows (numStars : ℕ) (solves : ℕ → ℕ → Bool) :
    ∀ (n j i : ℕ),
      i < ((depthLoop numStars solves (List.range' (j + 10) n 10) j []).1).length →
      ((depthLoop numStars solves (List.range' (j + 10) n 10) j []).1).getD
          i (0, 0) =
        (j + 10 * i, min (j + 10 * i + 10) numStars) ∧
      j + 10 * i < numStars := by
  intro n
  induction n with
  | zero =>
    intro j i hi
    simp [depthLoop] at hi
  | succ n ih =>
    intro j i hi
    rw [List.range'_succ] at hi ⊢
    simp only [depthLoop] at hi ⊢
    by_cases h1 : numStars ≤ j
    · rw [if_pos h1] at hi
      simp at hi
    · rw [if_neg h1] at hi ⊢
      by_cases h2 : solves j (min (j + 10) numStars) = true
      · rw [if_pos h2] at hi ⊢
        simp only [List.reverse_cons, List.reverse_nil, List.nil_append, List.singleton_append,
          List.length_cons, List.length_nil] at hi ⊢
        interval_cases i
        refine ⟨?_, by omega⟩
        simp only [List.getD_cons_zero, Nat.mul_zero, Nat.add_zero]
      · rw [if_neg h2] at hi ⊢
        rw [show j + 10 + 10 = (j + 10) + 10 by ring] at hi ⊢
        rw [depthLoop_acc numStars solves _ _ [(j, min (j + 10) numStars)]]
          at hi ⊢
        simp only [List.reverse_cons, List.reverse_nil, List.nil_append, List.singleton_append,
          List.length_append, List.length_cons, List.length_nil] at hi ⊢
        match i with
        | 0 =>
          refine ⟨?_, by omega⟩
          simp only [List.getD_cons_zero, Nat.mul_zero, Nat.add_zero]
        | i + 1 =>
          have hlen : i < ((depthLoop numStars solves
              (List.range' ((j + 10) + 10) n 10) (j + 10) []).1).length := by
            omega
          have hih := ih (j + 10) i hlen
          have hih2 := hih.2
          refine ⟨?_, by omega⟩
          rw [List.getD_cons_succ, hih.1]
          simp only [Prod.mk.injEq]
          constructor <;> omega

/-- If the loop reports no solution, every attempted window failed. -/
theorem depthLoop_all_fail (numStars : ℕ) (solves : ℕ → ℕ → Bool) :
    ∀ (rest : List ℕ) (lasthi : ℕ),
      (depthLoop numStars solves rest lasthi []).2 = false →
      ∀ w ∈ (depthLoop numStars solves rest lasthi []).1,
        solves w.1 w.2 = false := by
  intro rest
  induction rest with
  | nil => intro lasthi _ w hw; simp [depthLoop] at hw
  | cons d rest ih =>
    intro lasthi hs w hw
    simp only [depthLoop] at hs hw
    by_cases h1 : numStars ≤ lasthi
    · rw [if_pos h1] at hw
      simp at hw
    · rw [if_neg h1] at hs hw
      by_cases h2 : solves lasthi (min d numStars) = true
      · rw [if_pos h2] at hs
        simp at hs
      · rw [if_neg h2] at hs hw
        rw [depthLoop_acc numStars solves rest d
          [(lasthi, min d numStars)]] at hs hw
        simp only [List.reverse_cons, List.reverse_nil, List.nil_append, List.singleton_append,
          List.mem_cons] at hs hw
        rcases hw with rfl | hw
        · simpa using h2
        · exact ih d hs w hw

/-- If the loop reports a solution, the last attempted window solved (and at
least one window was attempted); together with `depthLoop_fail_before_last`
this says the loop stopped at the first solving window. -/
theorem depthLoop_solved_last (numStars : ℕ) (solves : ℕ → ℕ → Bool) :
    ∀ (rest : List ℕ) (lasthi : ℕ),
      (depthLoop numStars solves rest lasthi []).2 = true →
      (depthLoop numStars solves rest lasthi []).1 ≠ [] ∧
        solves ((depthLoop numStars solves rest lasthi []).1.getD
            ((depthLoop numStars solves rest lasthi []).1.length - 1) (0, 0)).1
          ((depthLoop numStars solves rest lasthi []).1.getD
            ((depthLoop numStars solves rest lasthi []).1.length - 1) (0, 0)).2 =
          true := by
  intro rest
  induction rest with
  | nil => intro lasthi hs; simp [depthLoop] at hs
  | cons d rest ih =>
    intro lasthi hs
    simp only [depthLoop] at hs ⊢
    by_cases h1 : numStars ≤ lasthi
    · rw [if_pos h1] at hs
      simp at hs
    · rw [if_neg h1] at hs ⊢
      by_cases h2 : solves lasthi (min d numStars) = true
      · rw [if_pos h2] at hs ⊢
        simpa using h2
      · rw [if_neg h2] at hs ⊢
        rw [depthLoop_acc numStars solves rest d
          [(lasthi, min d numStars)]] at hs ⊢
        simp only [List.reverse_cons, List.reverse_nil, List.nil_append, List.singleton_append] at hs ⊢
        obtain ⟨hne, hlast⟩ := ih d hs
        have hlen : (depthLoop numStars solves rest d []).1.length ≠ 0 := by
          intro h0
          exact hne (List.length_eq_zero.1 h0)
        refine ⟨by simp, ?_⟩
        rw [List.length_cons,
          show (depthLoop numStars solves rest d []).1.length + 1 - 1 =
            ((depthLoop numStars solves rest d []).1.length - 1) + 1 by omega,
          List.getD_cons_succ]
        exact hlast

/-- Every attempted window before the last one failed (the loop leaves a
window behind only when it did not solve). -/
theorem depthLoop_fail_before_last (numStars : ℕ) (solves : ℕ → ℕ → Bool) :
    ∀ (rest : List ℕ) (lasthi i : ℕ),
      i + 1 < (depthLoop numStars solves rest lasthi []).1.length →
      solves ((depthLoop numStars solves rest lasthi []).1.getD i (0, 0)).1
        ((depthLoop numStars solves rest lasthi []).1.getD i (0, 0)).2 =
        false := by
  intro rest
  induction rest with
  | nil => intro lasthi i hi; simp [depthLoop] at hi
  | cons d rest ih =>
    intro lasthi i hi
    simp only [depthLoop] at hi ⊢
    by_cases h1 : numStars ≤ lasthi
    · rw [if_pos h1] at hi
      simp at hi
    · rw [if_neg h1] at hi ⊢
      by_cases h2 : solves lasthi (min d numStars) = true
      · rw [if_pos h2] at hi
        simp at hi
      · rw [if_neg h2] at hi ⊢
        rw [depthLoop_acc numStars solves rest d
          [(lasthi, min d numStars)]] at hi ⊢
        simp only [List.reverse_cons, List.reverse_nil, List.nil_append, List.singleton_append,
          List.length_cons] at hi ⊢
        match i with
        | 0 =>
          simpa using h2
        | i + 1 =>
          rw [List.getD_cons_succ]
          exact ih d i (by omega)

/-- The depth schedule is the literal C array `{10, 20, ..., 200}`. -/
theorem depths_eq :
    depths = [10, 20, 30, 40, 50, 60, 70, 80, 90, 100,
              110, 120, 130, 140, 150, 160, 170, 180, 190, 200] := by
  decide

/-- Claim C8.  The plate-solve entry point iterates the depth schedule
`10, 20, ..., 200` in order: the `i`-th attempted window is
`[10*i, min (10*i+10) numStars)` (so each window starts where the previous
one nominally ended and the end is clamped to the star count, and the active
pool `[0, hi)` grows monotonically); consecutive attempted windows chain
(`start of window i+1 = clamped end of window i`); every attempted window
except possibly the last failed (the loop stops at the first success); when
no attempted window solves, the result is the 12-value all-zero tuple with
`solved = 0`; and when the loop reports success the last attempted window
solved. -/
theorem claim_C8 (numStars : ℕ) (solves : ℕ → ℕ → Bool) (mo : TanWcs) :
    (∀ i, i < (solveWindows numStars solves).1.length →
      (solveWindows numStars solves).1.getD i (0, 0) =
        (10 * i, min (10 * i + 10) numStars) ∧ 10 * i < numStars) ∧
    (∀ i, i + 1 < (solveWindows numStars solves).1.length →
      ((solveWindows numStars solves).1.getD (i + 1) (0, 0)).1 =
        ((solveWindows numStars solves).1.getD i (0, 0)).2) ∧
    (∀ i, i + 1 < (solveWindows numStars solves).1.length →
      solves ((solveWindows numStars solves).1.getD i (0, 0)).1
        ((solveWindows numStars solves).1.getD i (0, 0)).2 = false) ∧
    ((solveWindows numStars solves).2 = false →
      (∀ w ∈ (solveWindows numStars solves).1, solves w.1 w.2 = false) ∧
      solveFieldResult numStars solves mo = List.replicate 12 0) ∧
    ((solveWindows numStars solves).2 = true →
      (solveWindows numStars solves).1 ≠ [] ∧
      solves ((solveWindows numStars solves).1.getD
          ((solveWindows numStars solves).1.length - 1) (0, 0)).1
        ((solveWindows numStars solves).1.getD
          ((solveWindows numStars solves).1.length - 1) (0, 0)).2 = true) := by
  have hsw : solveWindows numStars solves =
      depthLoop numStars solves (List.range' (0 + 10) 20 10) 0 [] := by
    unfold solveWindows depths
    norm_num
  have hwin := depthLoop_windows numStars solves 20 0
  rw [← hsw] at hwin
  simp only [Nat.zero_add] at hwin
  refine ⟨fun i hi => hwin i hi, ?_, ?_, ?_, ?_⟩
  · intro i hi
    have h1 := hwin i (by omega)
    have h2 := hwin (i + 1) hi
    rw [h1.1, h2.1]
    have h22 := h2.2
    dsimp only
    omega
  · intro i hi
    unfold solveWindows at hi ⊢
    exact depthLoop_fail_before_last numStars solves depths 0 i hi
  · intro hs
    have hall := depthLoop_all_fail numStars solves depths 0
    unfold solveWindows at hs ⊢
    constructor
    · exact hall hs
    · unfold solveFieldResult
      rw [if_neg (by unfold solveWindows; rw [hs]; simp)]
  · intro hs
    have := depthLoop_solved_last numStars solves depths 0
    unfold solveWindows at hs ⊢
    exact this hs

/-- Witness for `claim_C8`: with 25 stars and an oracle that solves exactly
the window starting at star 10, the loop attempts `(0,10)` then `(10,20)` and
stops; with an oracle that never solves, the result is the zero tuple. -/
theorem claim_C8_witness :
    1 < (solveWindows 25 (fun s _ => decide (s = 10))).1.length ∧
    (solveWindows 25 (fun s _ => decide (s = 10))).1.getD 1 (0, 0) =
      (10 * 1, min (10 * 1 + 10) 25) ∧
    solveFieldResult 25 (fun _ _ => false) default = List.replicate 12 0 :=
  ⟨by decide,
   ((claim_C8 25 (fun s _ => decide (s = 10)) default).1 1 (by decide)).1,
   ((claim_C8 25 (fun _ _ => false) default).2.2.2.1 (by decide)).2⟩

/-! Claim C6: triangle descriptor canonicalisation. -/

/-- `SqrtQ.ltv` on explicit radicands is the rational comparison. -/
theorem ltv_mk {x y : ℚ} : SqrtQ.ltv ⟨x⟩ ⟨y⟩ ↔ x < y := by
  unfold SqrtQ.ltv
  exact qlt_iff x y

/-- `dist2` is symmetric in its two points. -/
theorem dist2_symm (x1 y1 x2 y2 : ℚ) : dist2 x1 y1 x2 y2 = dist2 x2 y2 x1 y1 := by
  unfold dist2
  simp only [qadd_eq, qmul_eq, qsub_eq]
  ring

/-- Closed form of the 3-element side sort. -/
theorem sortSides_three (p q r : SqrtQ × ℕ) :
    sortSides [p, q, r] =
      if q.1.ltv p.1 then
        (if r.1.ltv q.1 then [r, q, p]
         else if r.1.ltv p.1 then [q, r, p] else [q, p, r])
      else
        (if r.1.ltv p.1 then [r, p, q]
         else if r.1.ltv q.1 then [p, r, q] else [p, q, r]) := by
  unfold sortSides
  simp only [List.foldl, insSide]
  split_ifs <;> simp_all [insSide]

/-- Claim C6, counterexample.  The claim as stated (identical descriptor
under swapping `a` and `b`) fails on an isoceles triangle: with two tied side
lengths the insertion sort is stable in input order, so swapping the inputs
permutes `star_indices`. -/
theorem claim_C6_counterexample :
    mkTriangle starsC6 0 1 2 ≠ mkTriangle starsC6 0 2 1 ∧
      (mkTriangle starsC6 0 1 2).isSome = true ∧
      (mkTriangle starsC6 0 2 1).isSome = true := by
  refine ⟨by decide, by decide, by decide⟩

/-- Permutation helpers for three-element lists. -/
theorem perm3_132 {α : Type} (a b c : α) : [a, c, b].Perm [a, b, c] :=
  List.Perm.cons a (List.Perm.swap b c [])

theorem perm3_213 {α : Type} (a b c : α) : [b, a, c].Perm [a, b, c] :=
  List.Perm.swap a b [c]

theorem perm3_231 {α : Type} (a b c : α) : [b, c, a].Perm [a, b, c] :=
  (List.Perm.cons b (List.Perm.swap a c [])).trans (List.Perm.swap a b [c])

theorem perm3_312 {α : Type} (a b c : α) : [c, a, b].Perm [a, b, c] :=
  (List.Perm.swap a c [b]).trans (List.Perm.cons a (List.Perm.swap b c []))

theorem perm3_321 {α : Type} (a b c : α) : [c, b, a].Perm [a, b, c] :=
  (List.Perm.swap b c [a]).trans (perm3_231 a b c)

set_option maxHeartbeats 8000000 in
/-- Claim C6, amended: for a triangle whose three side lengths are pairwise
distinct (in particular non-degenerate), the descriptor lists as
`star_indices` exactly the three vertices, ordered so that the side opposite
`star_indices[k]` is the `k`-th shortest, and swapping the input order of the
two neighbour vertices yields the identical descriptor.  With tied side
lengths only the claim's swap-invariance fails (the sort is stable in input
order), as the counterexample shows. -/
theorem claim_C6_amended (stars : List P3) (i ia ib : ℕ) (t : Triangle)
    (h : mkTriangle stars i ia ib = some t)
    (hAB : dist2 (pstar stars i).x (pstar stars i).y
        (pstar stars ia).x (pstar stars ia).y ≠
      dist2 (pstar stars i).x (pstar stars i).y
        (pstar stars ib).x (pstar stars ib).y)
    (hAC : dist2 (pstar stars i).x (pstar stars i).y
        (pstar stars ia).x (pstar stars ia).y ≠
      dist2 (pstar stars ia).x (pstar stars ia).y
        (pstar stars ib).x (pstar stars ib).y)
    (hBC : dist2 (pstar stars i).x (pstar stars i).y
        (pstar stars ib).x (pstar stars ib).y ≠
      dist2 (pstar stars ia).x (pstar stars ia).y
        (pstar stars ib).x (pstar stars ib).y) :
    [t.idx0, t.idx1, t.idx2].Perm [i, ia, ib] ∧
    qlt (oppSide2 stars i ia ib t.idx0) (oppSide2 stars i ia ib t.idx1) ∧
    qlt (oppSide2 stars i ia ib t.idx1) (oppSide2 stars i ia ib t.idx2) ∧
    mkTriangle stars i ib ia = some t := by
  have hiia : i ≠ ia := by
    intro he
    exact hBC (by rw [he])
  have hiib : i ≠ ib := by
    intro he
    exact hAC (by rw [he, dist2_symm])
  have hiaib : ia ≠ ib := by
    intro he
    exact hAB (by rw [he])
  simp only [mkTriangle] at h ⊢
  rw [show dist2 (pstar stars ib).x (pstar stars ib).y
      (pstar stars ia).x (pstar stars ia).y =
      dist2 (pstar stars ia).x (pstar stars ia).y
      (pstar stars ib).x (pstar stars ib).y from dist2_symm _ _ _ _]
  obtain ⟨dA, hdA⟩ : ∃ q, dist2 (pstar stars i).x (pstar stars i).y
      (pstar stars ia).x (pstar stars ia).y = q := ⟨_, rfl⟩
  obtain ⟨dB, hdB⟩ : ∃ q, dist2 (pstar stars i).x (pstar stars i).y
      (pstar stars ib).x (pstar stars ib).y = q := ⟨_, rfl⟩
  obtain ⟨dC, hdC⟩ : ∃ q, dist2 (pstar stars ia).x (pstar stars ia).y
      (pstar stars ib).x (pstar stars ib).y = q := ⟨_, rfl⟩
  have hoppA : oppSide2 stars i ia ib ib = dA := by
    unfold oppSide2
    rw [if_neg (Ne.symm hiib), if_neg (Ne.symm hiaib)]
    exact hdA
  have hoppB : oppSide2 stars i ia ib ia = dB := by
    unfold oppSide2
    rw [if_neg (Ne.symm hiia), if_pos rfl]
    exact hdB
  have hoppC : oppSide2 stars i ia ib i = dC := by
    unfold oppSide2
    rw [if_pos rfl]
    exact hdC
  rw [hdA] at h hAB hAC ⊢
  rw [hdB] at h hAB hBC ⊢
  rw [hdC] at h hAC hBC ⊢
  by_cases hdeg : SqrtQ.ltc ⟨dA⟩ (mkRat 1 1000000) ∨
      SqrtQ.ltc ⟨dB⟩ (mkRat 1 1000000) ∨ SqrtQ.ltc ⟨dC⟩ (mkRat 1 1000000)
  · rw [if_pos hdeg] at h
    exact absurd h (by simp)
  · rw [if_neg hdeg] at h
    rw [if_neg (show ¬(SqrtQ.ltc ⟨dB⟩ (mkRat 1 1000000) ∨
      SqrtQ.ltc ⟨dA⟩ (mkRat 1 1000000) ∨
      SqrtQ.ltc ⟨dC⟩ (mkRat 1 1000000)) by tauto)]
    rw [sortSides_three] at h
    rw [sortSides_three]
    rcases lt_trichotomy dA dB with hab | hab | hab
    · rcases lt_trichotomy dB dC with hbc | hbc | hbc
      · -- dA < dB < dC: sorted [(dA,ib),(dB,ia),(dC,i)]
        rw [if_neg (by rw [ltv_mk]; exact not_lt.2 hab.le),
          if_neg (by rw [ltv_mk]; exact not_lt.2 (hab.trans hbc).le),
          if_neg (by rw [ltv_mk]; exact not_lt.2 hbc.le)] at h
        rw [if_pos (by rw [ltv_mk]; exact hab),
          if_neg (by rw [ltv_mk]; exact not_lt.2 (hab.trans hbc).le),
          if_neg (by rw [ltv_mk]; exact not_lt.2 hbc.le)]
        simp only [List.getD_cons_zero, List.getD_cons_succ,
          Option.some_inj] at h
        subst h
        dsimp only
        exact ⟨perm3_321 i ia ib, by rw [hoppA, hoppB]; exact (qlt_iff _ _).mpr hab,
          by rw [hoppB, hoppC]; exact (qlt_iff _ _).mpr hbc, rfl⟩
      · exact absurd hbc hBC
      · rcases lt_trichotomy dA dC with hac | hac | hac
        · -- dA < dC < dB: sorted [(dA,ib),(dC,i),(dB,ia)]
          rw [if_neg (by rw [ltv_mk]; exact not_lt.2 hab.le),
            if_neg (by rw [ltv_mk]; exact not_lt.2 hac.le),
            if_pos (by rw [ltv_mk]; exact hbc)] at h
          rw [if_pos (by rw [ltv_mk]; exact hab),
            if_neg (by rw [ltv_mk]; exact not_lt.2 hac.le),
            if_pos (by rw [ltv_mk]; exact hbc)]
          simp only [List.getD_cons_zero, List.getD_cons_succ,
            Option.some_inj] at h
          subst h
          dsimp only
          exact ⟨perm3_312 i ia ib,
            by rw [hoppA, hoppC]; exact (qlt_iff _ _).mpr hac,
            by rw [hoppC, hoppB]; exact (qlt_iff _ _).mpr hbc, rfl⟩
        · exact absurd hac hAC
        · -- dC < dA < dB: sorted [(dC,i),(dA,ib),(dB,ia)]
          rw [if_neg (by rw [ltv_mk]; exact not_lt.2 hab.le),
            if_pos (by rw [ltv_mk]; exact hac)] at h
          rw [if_pos (by rw [ltv_mk]; exact hab),
            if_pos (by rw [ltv_mk]; exact hac)]
          simp only [List.getD_cons_zero, List.getD_cons_succ,
            Option.some_inj] at h
          subst h
          dsimp only
          exact ⟨perm3_132 i ia ib,
            by rw [hoppC, hoppA]; exact (qlt_iff _ _).mpr hac,
            by rw [hoppA, hoppB]; exact (qlt_iff _ _).mpr hab, rfl⟩
    · exact absurd hab hAB
    · rcases lt_trichotomy dA dC with hac | hac | hac
      · -- dB < dA < dC: sorted [(dB,ia),(dA,ib),(dC,i)]
        rw [if_pos (by rw [ltv_mk]; exact hab),
          if_neg (by rw [ltv_mk]; exact not_lt.2 (hab.trans hac).le),
          if_neg (by rw [ltv_mk]; exact not_lt.2 hac.le)] at h
        rw [if_neg (by rw [ltv_mk]; exact not_lt.2 hab.le),
          if_neg (by rw [ltv_mk]; exact not_lt.2 (hab.trans hac).le),
          if_neg (by rw [ltv_mk]; exact not_lt.2 hac.le)]
        simp only [List.getD_cons_zero, List.getD_cons_succ,
          Option.some_inj] at h
        subst h
        dsimp only
        exact ⟨perm3_231 i ia ib,
          by rw [hoppB, hoppA]; exact (qlt_iff _ _).mpr hab,
          by rw [hoppA, hoppC]; exact (qlt_iff _ _).mpr hac, rfl⟩
      · exact absurd hac hAC
      · rcases lt_trichotomy dB dC with hbc | hbc | hbc
        · -- dB < dC < dA: sorted [(dB,ia),(dC,i),(dA,ib)]
          rw [if_pos (by rw [ltv_mk]; exact hab),
            if_neg (by rw [ltv_mk]; exact not_lt.2 hbc.le),
            if_pos (by rw [ltv_mk]; exact hac)] at h
          rw [if_neg (by rw [ltv_mk]; exact not_lt.2 hab.le),
            if_neg (by rw [ltv_mk]; exact not_lt.2 hbc.le),
            if_pos (by rw [ltv_mk]; exact hac)]
          simp only [List.getD_cons_zero, List.getD_cons_succ,
            Option.some_inj] at h
          subst h
          dsimp only
          exact ⟨perm3_213 i ia ib,
            by rw [hoppB, hoppC]; exact (qlt_iff _ _).mpr hbc,
            by rw [hoppC, hoppA]; exact (qlt_iff _ _).mpr hac, rfl⟩
        · exact absurd hbc hBC
        · -- dC < dB < dA: sorted [(dC,i),(dB,ia),(dA,ib)]
          rw [if_pos (by rw [ltv_mk]; exact hab),
            if_pos (by rw [ltv_mk]; exact hbc)] at h
          rw [if_neg (by rw [ltv_mk]; exact not_lt.2 hab.le),
            if_pos (by rw [ltv_mk]; exact hbc)]
          simp only [List.getD_cons_zero, List.getD_cons_succ,
            Option.some_inj] at h
          subst h
          dsimp only
          exact ⟨List.Perm.refl _,
            by rw [hoppC, hoppB]; exact (qlt_iff _ _).mpr hbc,
            by rw [hoppB, hoppA]; exact (qlt_iff _ _).mpr hab, rfl⟩

/-- Witness for `claim_C6_amended` on a 3-4-5 right triangle. -/
theorem claim_C6_witness :
    mkTriangle starsC6w 0 1 2 = some ⟨⟨mkRat 16 9⟩, ⟨mkRat 25 9⟩, 2, 1, 0⟩ ∧
    [(2 : ℕ), 1, 0].Perm [0, 1, 2] ∧
    qlt (oppSide2 starsC6w 0 1 2 2) (oppSide2 starsC6w 0 1 2 1) ∧
    qlt (oppSide2 starsC6w 0 1 2 1) (oppSide2 starsC6w 0 1 2 0) ∧
    mkTriangle starsC6w 0 2 1 = some ⟨⟨mkRat 16 9⟩, ⟨mkRat 25 9⟩, 2, 1, 0⟩ := by
  have := claim_C6_amended starsC6w 0 1 2 ⟨⟨mkRat 16 9⟩, ⟨mkRat 25 9⟩, 2, 1, 0⟩
    (by decide) (by decide) (by decide) (by decide)
  exact ⟨by decide, this.1, this.2.1, this.2.2.1, this.2.2.2⟩

/-! Claim C2. -/

/-- Claim C2.  Whenever `addFrameNative` does not report success (it returns
`NULL` or a tuple with `ok = 0`, covering reference-triangle failure,
new-frame triangle failure, fewer than 3 correspondences and RANSAC
failure), the accumulator's sum buffer, count buffer and frame count are
unchanged. -/
theorem claim_C2 (ctx : StackCtx) (pixels : List ℕ) (stars : List P3)
    (rng : ℕ → ℕ)
    (h : ((addFrameNative ctx pixels stars rng).2).map AddRes.ok ≠ some 1) :
    (addFrameNative ctx pixels stars rng).1.sumR = ctx.sumR ∧
    (addFrameNative ctx pixels stars rng).1.count = ctx.count ∧
    (addFrameNative ctx pixels stars rng).1.frameCount = ctx.frameCount := by
  by_cases h0 : ctx.frameCount = 0
  · rcases hF : formTriangles (stars.take (min stars.length 50)) with _ | tris
    · simp only [addFrameNative, h0, if_true, hF]
      exact ⟨by trivial, by trivial, by trivial⟩
    · simp only [addFrameNative, h0, if_true, hF, Option.map_some'] at h
      exact absurd rfl h
  · rcases hF : formTriangles (stars.take (min stars.length 50)) with _ | newTri
    · simp only [addFrameNative, h0, if_false, hF]
      exact ⟨by trivial, by trivial, by trivial⟩
    · by_cases hlen : newTri.length = 0
      · simp only [addFrameNative, h0, if_false, hF, hlen, if_true]
        exact ⟨by trivial, by trivial, by trivial⟩
      · by_cases hcl : (matchTriangles (ctx.refTriangles.getD []) ctx.refStars
            newTri stars).length < 3
        · simp only [addFrameNative, h0, if_false, hF, hlen, if_false, hcl,
            if_true]
          exact ⟨by trivial, by trivial, by trivial⟩
        · rcases hR : ransacAffine (matchTriangles (ctx.refTriangles.getD [])
              ctx.refStars newTri stars) rng with _ | best
          · simp only [addFrameNative, h0, if_false, hF, hlen, if_false, hcl,
              hR]
            exact ⟨by trivial, by trivial, by trivial⟩
          · simp only [addFrameNative, h0, if_false, hF, hlen, if_false, hcl,
              hR, Option.map_some'] at h
            exact absurd rfl h

/-- Witness for `claim_C2`: adding a 2-star frame (too few stars to form
triangles) to a 1-frame accumulator fails and leaves the buffers unchanged. -/
theorem claim_C2_witness :
    ((addFrameNative ctxC9 [1, 2] [⟨0, 0, 1⟩, ⟨1, 0, 1⟩] (fun _ => 0)).2).map
        AddRes.ok ≠ some 1 ∧
    (addFrameNative ctxC9 [1, 2] [⟨0, 0, 1⟩, ⟨1, 0, 1⟩] (fun _ => 0)).1.sumR =
      ctxC9.sumR ∧
    (addFrameNative ctxC9 [1, 2] [⟨0, 0, 1⟩, ⟨1, 0, 1⟩]
        (fun _ => 0)).1.frameCount = ctxC9.frameCount := by
  have := claim_C2 ctxC9 [1, 2] [⟨0, 0, 1⟩, ⟨1, 0, 1⟩] (fun _ => 0) (by decide)
  exact ⟨by decide, this.1, this.2.2⟩

/-! Claims C4 and C3: infrastructure about the orderer. -/

/-- Folding an insertion function that permutes produces a permutation of
the accumulator followed by the input. -/
theorem foldl_ins_perm {α : Type} (ins : α → List α → List α)
    (hins : ∀ k l, (ins k l).Perm (k :: l)) :
    ∀ (l acc : List α), (l.foldl (fun acc k => ins k acc) acc).Perm (acc ++ l)
  | [], acc => by simp
  | x :: rest, acc => by
    simp only [List.foldl_cons]
    refine (foldl_ins_perm ins hins rest (ins x acc)).trans ?_
    refine (((hins x acc).append_right rest).trans ?_)
    rw [List.cons_append]
    exact List.perm_middle.symm

theorem insDesc_perm (f : ℕ → ℚ) (k : ℕ) :
    ∀ l, (insDesc f k l).Perm (k :: l)
  | [] => List.Perm.refl _
  | a :: rest => by
    unfold insDesc
    split_ifs
    · exact List.Perm.refl _
    · exact ((insDesc_perm f k rest).cons a).trans (List.Perm.swap k a rest)

theorem sortDesc_perm (f : ℕ → ℚ) (l : List ℕ) : (sortDesc f l).Perm l := by
  unfold sortDesc
  simpa using foldl_ins_perm (insDesc f) (insDesc_perm f) l []

theorem insAsc_perm (k : ℕ) : ∀ l, (insAsc k l).Perm (k :: l)
  | [] => List.Perm.refl _
  | a :: rest => by
    unfold insAsc
    split_ifs
    · exact List.Perm.refl _
    · exact ((insAsc_perm k rest).cons a).trans (List.Perm.swap k a rest)

theorem sortAsc_perm (l : List ℕ) : (sortAsc l).Perm l := by
  unfold sortAsc
  simpa using foldl_ins_perm insAsc insAsc_perm l []

/-- A duplicate-free list of naturals below `N` with at least `N` entries
contains every natural below `N`. -/
theorem mem_of_nodup_bounded_long {l : List ℕ} {N : ℕ} (hnd : l.Nodup)
    (hlt : ∀ x ∈ l, x < N) (hlen : N ≤ l.length) : ∀ y, y < N → y ∈ l := by
  intro y hy
  have h1 : l.toFinset ⊆ Finset.range N := fun x hx =>
    Finset.mem_range.2 (hlt x (List.mem_toFinset.1 hx))
  have h2 : (Finset.range N).card ≤ l.toFinset.card := by
    rw [List.toFinset_card_of_nodup hnd, Finset.card_range]
    exact hlen
  have he := Finset.eq_of_subset_of_card_le h1 h2
  have : y ∈ l.toFinset := by
    rw [he]
    exact Finset.mem_range.2 hy
  exact List.mem_toFinset.1 this

/-- The interleave loop only appends to its accumulator. -/
theorem interleaveAux_append (N : ℕ) :
    ∀ (pairs : List (ℕ × ℕ)) (out : List ℕ),
      ∃ t, interleaveAux N pairs out = out ++ t
  | [], out => ⟨[], by simp [interleaveAux]⟩
  | (a, b) :: rest, out => by
    simp only [interleaveAux]
    split_ifs with h1 h2 h3 h2 h3
    · exact ⟨[], by simp⟩
    · obtain ⟨t, ht⟩ := interleaveAux_append N rest out
      exact ⟨t, ht⟩
    · obtain ⟨t, ht⟩ := interleaveAux_append N rest (out ++ [b])
      exact ⟨[b] ++ t, by rw [ht]; simp⟩
    · obtain ⟨t, ht⟩ := interleaveAux_append N rest (out ++ [a])
      exact ⟨[a] ++ t, by rw [ht]; simp⟩
    · obtain ⟨t, ht⟩ := interleaveAux_append N rest (out ++ [a] ++ [b])
      exact ⟨[a] ++ [b] ++ t, by rw [ht]; simp⟩

/-- The interleave loop preserves freedom from duplicates and the bound on
entries. -/
theorem interleaveAux_nodup_bounded (N : ℕ) :
    ∀ (pairs : List (ℕ × ℕ)) (out : List ℕ),
      out.Nodup → (∀ x ∈ out, x < N) →
      (∀ pr ∈ pairs, pr.1 < N ∧ pr.2 < N) →
      (interleaveAux N pairs out).Nodup ∧
        ∀ x ∈ interleaveAux N pairs out, x < N
  | [], out => fun hnd hbd _ => ⟨hnd, hbd⟩
  | (a, b) :: rest, out => by
    intro hnd hbd hpr
    have hab := hpr (a, b) (List.mem_cons_self _ _)
    have hrest : ∀ pr ∈ rest, pr.1 < N ∧ pr.2 < N :=
      fun pr hpr' => hpr pr (List.mem_cons_of_mem _ hpr')
    have happ : ∀ (l : List ℕ) (y : ℕ), l.Nodup → (∀ x ∈ l, x < N) → y < N →
        y ∉ l → ((l ++ [y]).Nodup ∧ ∀ x ∈ l ++ [y], x < N) := by
      intro l y hlnd hlbd hy hm
      constructor
      · rw [List.nodup_append]
        refine ⟨hlnd, List.nodup_singleton y, ?_⟩
        intro x hx
        simp only [List.mem_singleton]
        intro he
        exact hm (he ▸ hx)
      · intro x hx
        rcases List.mem_append.1 hx with hx | hx
        · exact hlbd x hx
        · rw [List.mem_singleton] at hx
          exact hx ▸ hy
    simp only [interleaveAux]
    split_ifs with h1 h2 h3 h4
    · exact ⟨hnd, hbd⟩
    · exact interleaveAux_nodup_bounded N rest out hnd hbd hrest
    · have hb' : b ∉ out := (not_or.1 h3).1
      have h' := happ out b hnd hbd hab.2 hb'
      exact interleaveAux_nodup_bounded N rest _ h'.1 h'.2 hrest
    · have h' := happ out a hnd hbd hab.1 h2
      exact interleaveAux_nodup_bounded N rest _ h'.1 h'.2 hrest
    · have h'a := happ out a hnd hbd hab.1 h2
      have hb' : b ∉ out ++ [a] := (not_or.1 h4).1
      have h' := happ (out ++ [a]) b h'a.1 h'a.2 hab.2 hb'
      exact interleaveAux_nodup_bounded N rest _ h'.1 h'.2 hrest

/-- The interleave loop grows the output by at most two entries per pair. -/
theorem interleaveAux_length (N : ℕ) :
    ∀ (pairs : List (ℕ × ℕ)) (out : List ℕ),
      (interleaveAux N pairs out).length ≤ out.length + 2 * pairs.length
  | [], out => by simp [interleaveAux]
  | (a, b) :: rest, out => by
    simp only [interleaveAux]
    split_ifs with h1 h2 h3 h4
    · simp
    · have h := interleaveAux_length N rest out
      simp only [List.length_cons]
      omega
    · have h := interleaveAux_length N rest (out ++ [b])
      simp only [List.length_cons, List.length_append, List.length_singleton, List.length_nil] at h ⊢
      omega
    · have h := interleaveAux_length N rest (out ++ [a])
      simp only [List.length_cons, List.length_append, List.length_singleton, List.length_nil] at h ⊢
      omega
    · have h := interleaveAux_length N rest (out ++ [a] ++ [b])
      simp only [List.length_cons, List.length_append, List.length_singleton, List.length_nil] at h ⊢
      omega

/-! Claim C4: interleave membership, orderer permutation. -/

/-- Listing a list by its indices via `getD` reproduces the list. -/
theorem map_getD_range_self {α : Type} (l : List α) (d : α) :
    (List.range l.length).map (fun i => l.getD i d) = l := by
  apply List.ext_getElem
  · simp
  · intro i h1 h2
    simp only [List.getElem_map, List.getElem_range]
    exact l.getD_eq_getElem d h2

/-- Appending a fresh bounded element keeps a list duplicate-free and bounded. -/
theorem nodup_bounded_append {N : ℕ} (l : List ℕ) (y : ℕ) (hlnd : l.Nodup)
    (hlbd : ∀ x ∈ l, x < N) (hy : y < N) (hm : y ∉ l) :
    (l ++ [y]).Nodup ∧ ∀ x ∈ l ++ [y], x < N := by
  constructor
  · rw [List.nodup_append]
    refine ⟨hlnd, List.nodup_singleton y, ?_⟩
    intro x hx
    simp only [List.mem_singleton]
    intro he
    exact hm (he ▸ hx)
  · intro x hx
    rcases List.mem_append.1 hx with hx | hx
    · exact hlbd x hx
    · rw [List.mem_singleton] at hx
      exact hx ▸ hy

/-- The first component of every pair of the work list ends up in the
interleave output: the loop always emits `perm1[i]` if absent, and once the
output is full it already contains every index below `N`. -/
theorem interleaveAux_mem_fst (N : ℕ) :
    ∀ (pairs : List (ℕ × ℕ)) (out : List ℕ),
      out.Nodup → (∀ x ∈ out, x < N) →
      (∀ pr ∈ pairs, pr.1 < N ∧ pr.2 < N) →
      ∀ pr ∈ pairs, pr.1 ∈ interleaveAux N pairs out
  | [], _ => fun _ _ _ pr hpr => absurd hpr (List.not_mem_nil pr)
  | (a, b) :: rest, out => by
    intro hnd hbd hpr pr hmem
    have hab := hpr (a, b) (List.mem_cons_self _ _)
    have hrest : ∀ q ∈ rest, q.1 < N ∧ q.2 < N :=
      fun q hq => hpr q (List.mem_cons_of_mem _ hq)
    simp only [interleaveAux]
    split_ifs with h1 h2 h3 h4
    · exact mem_of_nodup_bounded_long hnd hbd h1 pr.1 (hpr pr hmem).1
    · rcases List.mem_cons.1 hmem with rfl | hmem'
      · obtain ⟨t, ht⟩ := interleaveAux_append N rest out
        rw [ht]
        exact List.mem_append_left _ h2
      · exact interleaveAux_mem_fst N rest out hnd hbd hrest pr hmem'
    · have hb' : b ∉ out := (not_or.1 h3).1
      have h' := nodup_bounded_append out b hnd hbd hab.2 hb'
      rcases List.mem_cons.1 hmem with rfl | hmem'
      · obtain ⟨t, ht⟩ := interleaveAux_append N rest (out ++ [b])
        rw [ht]
        exact List.mem_append_left _ (List.mem_append_left _ h2)
      · exact interleaveAux_mem_fst N rest _ h'.1 h'.2 hrest pr hmem'
    · have h' := nodup_bounded_append out a hnd hbd hab.1 h2
      rcases List.mem_cons.1 hmem with rfl | hmem'
      · obtain ⟨t, ht⟩ := interleaveAux_append N rest (out ++ [a])
        rw [ht]
        exact List.mem_append_left _
          (List.mem_append_right _ (List.mem_singleton_self a))
      · exact interleaveAux_mem_fst N rest _ h'.1 h'.2 hrest pr hmem'
    · have h'a := nodup_bounded_append out a hnd hbd hab.1 h2
      have hb' : b ∉ out ++ [a] := (not_or.1 h4).1
      have h' := nodup_bounded_append (out ++ [a]) b h'a.1 h'a.2 hab.2 hb'
      rcases List.mem_cons.1 hmem with rfl | hmem'
      · obtain ⟨t, ht⟩ := interleaveAux_append N rest (out ++ [a] ++ [b])
        rw [ht]
        exact List.mem_append_left _ (List.mem_append_left _
          (List.mem_append_right _ (List.mem_singleton_self a)))
      · exact interleaveAux_mem_fst N rest _ h'.1 h'.2 hrest pr hmem'

/-- The brightness-interleaved order is a permutation of the index range. -/
theorem outputOrder_perm_range (stars : List Star) :
    (outputOrder stars).Perm (List.range stars.length) := by
  have hp1 : (perm1 stars).Perm (List.range stars.length) := sortDesc_perm _ _
  have hp2 : (perm2 stars).Perm (List.range stars.length) := sortDesc_perm _ _
  have hl1 : (perm1 stars).length = stars.length := by
    rw [hp1.length_eq, List.length_range]
  have hl2 : (perm2 stars).length = stars.length := by
    rw [hp2.length_eq, List.length_range]
  have hzip : ∀ pr ∈ (perm1 stars).zip (perm2 stars),
      pr.1 < stars.length ∧ pr.2 < stars.length := by
    intro pr hpr
    obtain ⟨h1, h2⟩ := List.of_mem_zip hpr
    exact ⟨List.mem_range.1 (hp1.mem_iff.1 h1), List.mem_range.1 (hp2.mem_iff.1 h2)⟩
  have hnub := interleaveAux_nodup_bounded stars.length
    ((perm1 stars).zip (perm2 stars)) [] List.nodup_nil
    (fun x hx => absurd hx (List.not_mem_nil x)) hzip
  have hmem : ∀ y, y < stars.length → y ∈ outputOrder stars := by
    intro y hy
    have hy1 : y ∈ perm1 stars := hp1.mem_iff.2 (List.mem_range.2 hy)
    obtain ⟨i, hi1, hget⟩ := List.mem_iff_getElem.1 hy1
    have hi2 : i < (perm2 stars).length := by omega
    have hiz : i < ((perm1 stars).zip (perm2 stars)).length := by
      rw [List.length_zip]
      omega
    have hpr : ((perm1 stars)[i], (perm2 stars)[i]) ∈
        (perm1 stars).zip (perm2 stars) := by
      refine List.mem_iff_getElem.2 ⟨i, hiz, ?_⟩
      rw [List.getElem_zip]
    have hres := interleaveAux_mem_fst stars.length
      ((perm1 stars).zip (perm2 stars)) [] List.nodup_nil
      (fun x hx => absurd hx (List.not_mem_nil x)) hzip _ hpr
    rw [hget] at hres
    exact hres
  refine List.perm_of_nodup_nodup_toFinset_eq hnub.1 (List.nodup_range _) ?_
  apply Finset.ext
  intro a
  simp only [List.mem_toFinset, List.mem_range]
  exact ⟨fun ha => hnub.2 a ha, fun ha => hmem a ha⟩

/-- Membership in a bin list of the uniformize step. -/
theorem mem_binListPos (assign : ℕ → ℕ) (N b p : ℕ) :
    p ∈ binListPos assign N b ↔ p < N ∧ assign p = b := by
  simp [binListPos, List.mem_filter, List.mem_range]

/-- Bin lists are duplicate-free. -/
theorem binListPos_nodup (assign : ℕ → ℕ) (N b : ℕ) :
    (binListPos assign N b).Nodup :=
  (List.nodup_range N).filter _

/-- Membership in round `r` of the round-robin emission. -/
theorem mem_roundRow (assign : ℕ → ℕ) (N nbins r p : ℕ) :
    p ∈ roundRow assign N nbins r ↔
      ∃ b, b < nbins ∧ (binListPos assign N b).get? r = some p := by
  unfold roundRow
  rw [(sortAsc_perm _).mem_iff, List.mem_filterMap]
  constructor
  · rintro ⟨b, hb, hget⟩
    exact ⟨b, List.mem_range.1 hb, hget⟩
  · rintro ⟨b, hb, hget⟩
    exact ⟨b, List.mem_range.2 hb, hget⟩

/-- A position in round `r` sits at index `r` of its own bin's list. -/
theorem roundRow_spec (assign : ℕ → ℕ) (N nbins r p : ℕ)
    (h : p ∈ roundRow assign N nbins r) :
    p < N ∧ (binListPos assign N (assign p)).get? r = some p ∧
      assign p < nbins := by
  obtain ⟨b, hb, hget⟩ := (mem_roundRow assign N nbins r p).1 h
  have hmem : p ∈ binListPos assign N b := List.get?_mem hget
  obtain ⟨hpN, hab⟩ := (mem_binListPos assign N b p).1 hmem
  rw [← hab] at hget hb
  exact ⟨hpN, hget, hb⟩

/-- A duplicate-free list takes each value at one index only. -/
theorem get?_inj_of_nodup {l : List ℕ} (hnd : l.Nodup) {r r' p : ℕ}
    (h : l.get? r = some p) (h' : l.get? r' = some p) : r = r' := by
  obtain ⟨hr, hget⟩ := List.get?_eq_some.1 h
  obtain ⟨hr', hget'⟩ := List.get?_eq_some.1 h'
  have he : (⟨r, hr⟩ : Fin l.length) = ⟨r', hr'⟩ :=
    (hnd.get_inj_iff).1 (hget.trans hget'.symm)
  exact congrArg Fin.val he

/-- A member of a list of naturals is at most the `foldr max 0` of the list. -/
theorem le_foldr_max : ∀ (l : List ℕ), ∀ x ∈ l, x ≤ l.foldr max 0
  | [] => fun x hx => absurd hx (List.not_mem_nil x)
  | a :: rest => by
    intro x hx
    rw [List.foldr_cons]
    rcases List.mem_cons.1 hx with rfl | hx'
    · exact le_max_left _ _
    · exact le_trans (le_foldr_max rest x hx') (le_max_right _ _)

/-- Every bin of the grid holds at most `maxlen` entries. -/
theorem binListPos_length_le (assign : ℕ → ℕ) (N nbins b : ℕ) (hb : b < nbins) :
    (binListPos assign N b).length ≤ maxBinLen assign N nbins := by
  unfold maxBinLen
  exact le_foldr_max _ _ (List.mem_map_of_mem _ (List.mem_range.2 hb))

/-- The round-robin emission lists exactly the positions below `N`. -/
theorem mem_uniformPositions (assign : ℕ → ℕ) (N nbins : ℕ)
    (hassign : ∀ i, i < N → assign i < nbins) (p : ℕ) :
    p ∈ uniformPositions assign N nbins ↔ p < N := by
  unfold uniformPositions
  rw [List.mem_flatten]
  constructor
  · rintro ⟨row, hrow, hp⟩
    obtain ⟨r, _, rfl⟩ := List.mem_map.1 hrow
    exact (roundRow_spec assign N nbins r p hp).1
  · intro hp
    have hmem : p ∈ binListPos assign N (assign p) :=
      (mem_binListPos assign N (assign p) p).2 ⟨hp, rfl⟩
    obtain ⟨r, hget⟩ := List.mem_iff_get?.1 hmem
    have hr : r < (binListPos assign N (assign p)).length :=
      (List.get?_eq_some.1 hget).1
    have hrlt : r < maxBinLen assign N nbins :=
      lt_of_lt_of_le hr
        (binListPos_length_le assign N nbins (assign p) (hassign p hp))
    refine ⟨roundRow assign N nbins r,
      List.mem_map_of_mem _ (List.mem_range.2 hrlt), ?_⟩
    exact (mem_roundRow assign N nbins r p).2 ⟨assign p, hassign p hp, hget⟩

/-- Each round is duplicate-free. -/
theorem roundRow_nodup (assign : ℕ → ℕ) (N nbins r : ℕ) :
    (roundRow assign N nbins r).Nodup := by
  unfold roundRow
  refine ((sortAsc_perm _).nodup_iff).2 ?_
  refine List.Nodup.filterMap ?_ (List.nodup_range nbins)
  intro b b' p hb hb'
  rw [Option.mem_def] at hb hb'
  have h1 := ((mem_binListPos assign N b p).1 (List.get?_mem hb)).2
  have h2 := ((mem_binListPos assign N b' p).1 (List.get?_mem hb')).2
  rw [← h1, ← h2]

/-- The full round-robin emission is duplicate-free. -/
theorem uniformPositions_nodup (assign : ℕ → ℕ) (N nbins : ℕ) :
    (uniformPositions assign N nbins).Nodup := by
  unfold uniformPositions
  rw [List.nodup_flatten]
  constructor
  · intro l hl
    obtain ⟨r, _, rfl⟩ := List.mem_map.1 hl
    exact roundRow_nodup assign N nbins r
  · rw [List.pairwise_map]
    refine List.Pairwise.imp ?_ (List.pairwise_lt_range _)
    intro r r' hrr' p hp hp'
    have h1 := roundRow_spec assign N nbins r p hp
    have h2 := roundRow_spec assign N nbins r' p hp'
    exact absurd
      (get?_inj_of_nodup (binListPos_nodup assign N (assign p)) h1.2.1 h2.2.1)
      (Nat.ne_of_lt hrr')

/-- The round-robin emission permutes the positions `0..N-1`. -/
theorem uniformPositions_perm_range (assign : ℕ → ℕ) (N nbins : ℕ)
    (hassign : ∀ i, i < N → assign i < nbins) :
    (uniformPositions assign N nbins).Perm (List.range N) := by
  refine List.perm_of_nodup_nodup_toFinset_eq
    (uniformPositions_nodup assign N nbins) (List.nodup_range N) ?_
  apply Finset.ext
  intro a
  simp only [List.mem_toFinset, List.mem_range]
  exact mem_uniformPositions assign N nbins hassign a

/-- The clamped bin coordinate stays below the grid size. -/
theorem clampBin_lt (n : ℕ) (v : ℤ) (hn : 1 ≤ n) : clampBin n v < n := by
  simp only [clampBin]
  split_ifs <;> omega

/-- The grid bin of a star is below `NX * NY`. -/
theorem starBin_lt (xmin ymin Wf Hf : ℚ) (NX NY : ℕ) (st : Star)
    (hx : 1 ≤ NX) (hy : 1 ≤ NY) :
    starBin xmin ymin Wf Hf NX NY st < NX * NY := by
  have h1 := clampBin_lt NX (truncQ (qmul (qdiv (qsub st.x xmin) Wf) (NX : ℚ))) hx
  have h2 := clampBin_lt NY (truncQ (qmul (qdiv (qsub st.y ymin) Hf) (NY : ℚ))) hy
  simp only [starBin]
  calc clampBin NY (truncQ (qmul (qdiv (qsub st.y ymin) Hf) (NY : ℚ))) * NX
        + clampBin NX (truncQ (qmul (qdiv (qsub st.x xmin) Wf) (NX : ℚ)))
      < (clampBin NY (truncQ (qmul (qdiv (qsub st.y ymin) Hf) (NY : ℚ))) + 1) * NX := by
        rw [Nat.add_mul, Nat.one_mul]
        omega
    _ ≤ NY * NX := mul_le_mul_right' h2 NX
    _ = NX * NY := Nat.mul_comm NY NX

/-- The horizontal grid count is at least one. -/
theorem one_le_computeNX (Wf Hf : ℚ) : 1 ≤ computeNX Wf Hf := le_max_right _ 1

/-- The vertical grid count is at least one. -/
theorem one_le_computeNY (NX : ℕ) : 1 ≤ computeNY NX := le_max_right _ 1

/-- The uniformize step permutes the order list. -/
theorem uniformize_perm (stars : List Star) (ord : List ℕ) :
    (uniformize stars ord).Perm ord := by
  simp only [uniformize]
  split_ifs with h
  · refine List.Perm.trans
      (List.Perm.map _ (uniformPositions_perm_range _ _ _ ?_)) ?_
    · intro i _
      exact starBin_lt _ _ _ _ _ _ _ (one_le_computeNX _ _) (one_le_computeNY _)
    · rw [map_getD_range_self]
  · exact List.Perm.refl ord

/-- The full orderer permutes the index range. -/
theorem ordererIndices_perm_range (stars : List Star) :
    (ordererIndices stars).Perm (List.range stars.length) :=
  (uniformize_perm stars (outputOrder stars)).trans (outputOrder_perm_range stars)

/-- The full orderer output permutes the detected star list. -/
theorem ordererOutput_perm (stars : List Star) :
    (ordererOutput stars).Perm stars := by
  have h := (ordererIndices_perm_range stars).map (star stars)
  have hfun : star stars = fun i => stars.getD i default := rfl
  rw [hfun, map_getD_range_self] at h
  exact h

/-- Elements of a shorter take stay in a longer take. -/
theorem mem_take_mono {α : Type} {l : List α} {m m' : ℕ} {x : α}
    (hmm : m ≤ m') (hx : x ∈ l.take m) : x ∈ l.take m' := by
  obtain ⟨i, hi, hg⟩ := List.mem_iff_getElem.1 hx
  have hil : i < l.length := by
    rw [List.length_take] at hi
    omega
  refine List.mem_iff_getElem.2 ⟨i, ?_, ?_⟩
  · rw [List.length_take]
    rw [List.length_take] at hi
    omega
  · rw [List.getElem_take]
    rw [List.getElem_take] at hg
    exact hg

/-- Accumulator elements stay within the first `m ≥ |out|` entries of the
interleave output. -/
theorem mem_take_interleave (N : ℕ) (pairs : List (ℕ × ℕ)) (o : List ℕ)
    (m x : ℕ) (hlen : o.length ≤ m) (hx : x ∈ o) :
    x ∈ (interleaveAux N pairs o).take m := by
  obtain ⟨t, ht⟩ := interleaveAux_append N pairs o
  rw [ht, List.take_append_eq_append_take, List.take_of_length_le hlen]
  exact List.mem_append_left _ hx

/-- Pairs processed within the first `k` rounds land in the first
`|out| + 2 k` entries of the interleave output. -/
theorem interleaveAux_take (N : ℕ) :
    ∀ (pairs : List (ℕ × ℕ)) (out : List ℕ) (k : ℕ),
      out.Nodup → (∀ x ∈ out, x < N) →
      (∀ pr ∈ pairs, pr.1 < N ∧ pr.2 < N) →
      ∀ pr ∈ pairs.take k,
        pr.1 ∈ (interleaveAux N pairs out).take (out.length + 2 * k) ∧
        pr.2 ∈ (interleaveAux N pairs out).take (out.length + 2 * k)
  | [], _, k => fun _ _ _ pr hpr => by simp at hpr
  | (_, _) :: _, _, 0 => fun _ _ _ pr hpr => by simp at hpr
  | (a, b) :: rest, out, (k + 1) => by
    intro hnd hbd hpr pr hmem
    have hab := hpr (a, b) (List.mem_cons_self _ _)
    have hrest : ∀ q ∈ rest, q.1 < N ∧ q.2 < N :=
      fun q hq => hpr q (List.mem_cons_of_mem _ hq)
    simp only [interleaveAux]
    split_ifs with h1 h2 h3 h4
    · rw [List.take_of_length_le
        (show out.length ≤ out.length + 2 * (k + 1) by omega)]
      have hpr' := hpr pr (List.take_subset _ _ hmem)
      exact ⟨mem_of_nodup_bounded_long hnd hbd h1 pr.1 hpr'.1,
        mem_of_nodup_bounded_long hnd hbd h1 pr.2 hpr'.2⟩
    · rw [List.take_succ_cons] at hmem
      rcases List.mem_cons.1 hmem with rfl | hmem'
      · have hb : b ∈ out := by
          rcases h3 with h3 | h3
          · exact h3
          · exact mem_of_nodup_bounded_long hnd hbd h3 b hab.2
        exact ⟨mem_take_interleave N rest out _ a (by omega) h2,
          mem_take_interleave N rest out _ b (by omega) hb⟩
      · have hres := interleaveAux_take N rest out k hnd hbd hrest pr hmem'
        exact ⟨mem_take_mono (by omega) hres.1, mem_take_mono (by omega) hres.2⟩
    · rw [List.take_succ_cons] at hmem
      have hlen2 : (out ++ [b]).length = out.length + 1 := by simp
      have hb' : b ∉ out := (not_or.1 h3).1
      have hnb := nodup_bounded_append out b hnd hbd hab.2 hb'
      rcases List.mem_cons.1 hmem with rfl | hmem'
      · refine ⟨mem_take_interleave N rest (out ++ [b]) _ a ?_
            (List.mem_append_left _ h2),
          mem_take_interleave N rest (out ++ [b]) _ b ?_
            (List.mem_append_right _ (List.mem_singleton_self b))⟩
        · rw [hlen2]
          omega
        · rw [hlen2]
          omega
      · have hres := interleaveAux_take N rest (out ++ [b]) k hnb.1 hnb.2
          hrest pr hmem'
        refine ⟨mem_take_mono ?_ hres.1, mem_take_mono ?_ hres.2⟩
        · rw [hlen2]
          omega
        · rw [hlen2]
          omega
    · rw [List.take_succ_cons] at hmem
      have hlen2 : (out ++ [a]).length = out.length + 1 := by simp
      have hna := nodup_bounded_append out a hnd hbd hab.1 h2
      rcases List.mem_cons.1 hmem with rfl | hmem'
      · have hb : b ∈ out ++ [a] := by
          rcases h4 with h4 | h4
          · exact h4
          · exact mem_of_nodup_bounded_long hna.1 hna.2 h4 b hab.2
        refine ⟨mem_take_interleave N rest (out ++ [a]) _ a ?_
            (List.mem_append_right _ (List.mem_singleton_self a)),
          mem_take_interleave N rest (out ++ [a]) _ b ?_ hb⟩
        · rw [hlen2]
          omega
        · rw [hlen2]
          omega
      · have hres := interleaveAux_take N rest (out ++ [a]) k hna.1 hna.2
          hrest pr hmem'
        refine ⟨mem_take_mono ?_ hres.1, mem_take_mono ?_ hres.2⟩
        · rw [hlen2]
          omega
        · rw [hlen2]
          omega
    · rw [List.take_succ_cons] at hmem
      have hna := nodup_bounded_append out a hnd hbd hab.1 h2
      have hb' : b ∉ out ++ [a] := (not_or.1 h4).1
      have hnb := nodup_bounded_append (out ++ [a]) b hna.1 hna.2 hab.2 hb'
      have hlen2 : (out ++ [a] ++ [b]).length = out.length + 2 := by simp
      rcases List.mem_cons.1 hmem with rfl | hmem'
      · refine ⟨mem_take_interleave N rest (out ++ [a] ++ [b]) _ a ?_
            (List.mem_append_left _
              (List.mem_append_right _ (List.mem_singleton_self a))),
          mem_take_interleave N rest (out ++ [a] ++ [b]) _ b ?_
            (List.mem_append_right _ (List.mem_singleton_self b))⟩
        · rw [hlen2]
          omega
        · rw [hlen2]
          omega
      · have hres := interleaveAux_take N rest (out ++ [a] ++ [b]) k hnb.1 hnb.2
          hrest pr hmem'
        refine ⟨mem_take_mono ?_ hres.1, mem_take_mono ?_ hres.2⟩
        · rw [hlen2]
          omega
        · rw [hlen2]
          omega

/-- Claim C4 (counterexample): with two stars whose flux order and raw-signal
order agree, the first `2 k = 2` elements of the interleaved order are both
stars, while the union of the top-1 flux-sorted and top-1 raw-signal-sorted
stars holds only the brightest; the claimed set equality fails. -/
theorem claim_C4_counterexample :
    ¬ (((outputOrder starsC4).take 2).toFinset =
        (((perm1 starsC4).take 1).toFinset ∪ ((perm2 starsC4).take 1).toFinset)) := by
  decide

/-- Claim C4 (amended): the Orderer output is a permutation of the detected
star list (length `N`, each star exactly once), and among the first `2 k`
elements of the brightness-interleaved order one finds every one of the top-`k`
flux-sorted and top-`k` raw-signal-sorted stars.  The claimed set equality
only holds as this inclusion: when the two top-`k` sets overlap, the first
`2 k` slots also admit stars from deeper ranks. -/
theorem claim_C4_amended (stars : List Star) :
    (ordererOutput stars).Perm stars ∧
    ∀ k x, (x ∈ (perm1 stars).take k ∨ x ∈ (perm2 stars).take k) →
      x ∈ (outputOrder stars).take (2 * k) := by
  refine ⟨ordererOutput_perm stars, ?_⟩
  intro k x hx
  have hp1 : (perm1 stars).Perm (List.range stars.length) := sortDesc_perm _ _
  have hp2 : (perm2 stars).Perm (List.range stars.length) := sortDesc_perm _ _
  have hl1 : (perm1 stars).length = stars.length := by
    rw [hp1.length_eq, List.length_range]
  have hl2 : (perm2 stars).length = stars.length := by
    rw [hp2.length_eq, List.length_range]
  have hzip : ∀ pr ∈ (perm1 stars).zip (perm2 stars),
      pr.1 < stars.length ∧ pr.2 < stars.length := by
    intro pr hpr
    obtain ⟨h1, h2⟩ := List.of_mem_zip hpr
    constructor
    · exact List.mem_range.1 (hp1.mem_iff.1 h1)
    · exact List.mem_range.1 (hp2.mem_iff.1 h2)
  have hzlen : ((perm1 stars).zip (perm2 stars)).length = stars.length := by
    rw [List.length_zip, hl1, hl2]
    exact min_self _
  rcases hx with hx | hx
  · obtain ⟨i, hi, hgx⟩ := List.mem_iff_getElem.1 hx
    have hi1 : i < (perm1 stars).length := by
      rw [List.length_take] at hi
      omega
    have hi2 : i < (perm2 stars).length := by omega
    have hik : i < k := by
      rw [List.length_take] at hi
      omega
    have hgx' : (perm1 stars)[i] = x := by
      rw [List.getElem_take] at hgx
      exact hgx
    have hiz : i < ((perm1 stars).zip (perm2 stars)).length := by omega
    have hpmem : ((perm1 stars)[i], (perm2 stars)[i]) ∈
        ((perm1 stars).zip (perm2 stars)).take k := by
      refine List.mem_iff_getElem.2 ⟨i, ?_, ?_⟩
      · rw [List.length_take]
        omega
      · rw [List.getElem_take, List.getElem_zip]
    have hres := interleaveAux_take stars.length
      ((perm1 stars).zip (perm2 stars)) [] k List.nodup_nil
      (fun y hy => absurd hy (List.not_mem_nil y)) hzip
      ((perm1 stars)[i], (perm2 stars)[i]) hpmem
    simp only [List.length_nil, Nat.zero_add] at hres
    rw [hgx'] at hres
    exact hres.1
  · obtain ⟨i, hi, hgx⟩ := List.mem_iff_getElem.1 hx
    have hi2 : i < (perm2 stars).length := by
      rw [List.length_take] at hi
      omega
    have hi1 : i < (perm1 stars).length := by omega
    have hik : i < k := by
      rw [List.length_take] at hi
      omega
    have hgx' : (perm2 stars)[i] = x := by
      rw [List.getElem_take] at hgx
      exact hgx
    have hiz : i < ((perm1 stars).zip (perm2 stars)).length := by omega
    have hpmem : ((perm1 stars)[i], (perm2 stars)[i]) ∈
        ((perm1 stars).zip (perm2 stars)).take k := by
      refine List.mem_iff_getElem.2 ⟨i, ?_, ?_⟩
      · rw [List.length_take]
        omega
      · rw [List.getElem_take, List.getElem_zip]
    have hres := interleaveAux_take stars.length
      ((perm1 stars).zip (perm2 stars)) [] k List.nodup_nil
      (fun y hy => absurd hy (List.not_mem_nil y)) hzip
      ((perm1 stars)[i], (perm2 stars)[i]) hpmem
    simp only [List.length_nil, Nat.zero_add] at hres
    rw [hgx'] at hres
    exact hres.2

/-- Witness for claim C4 (amended) at the two-star input: the orderer output
permutes the input and the top-1 flux star appears among the first two
emitted. -/
theorem claim_C4_witness :
    (ordererOutput starsC4).Perm starsC4 ∧ 0 ∈ (outputOrder starsC4).take 2 :=
  ⟨(claim_C4_amended starsC4).1,
    (claim_C4_amended starsC4).2 1 0 (Or.inl (by decide))⟩

/-! Claim C3: prefix uniformity of the round-robin emission. -/

/-- `filterMap` of an everywhere-`some` function keeps the length. -/
theorem length_filterMap_of_isSome {α β : Type} (f : α → Option β) :
    ∀ (l : List α), (∀ a ∈ l, (f a).isSome) → (l.filterMap f).length = l.length
  | [] => fun _ => rfl
  | a :: rest => by
    intro h
    obtain ⟨x, hx⟩ := Option.isSome_iff_exists.1 (h a (List.mem_cons_self _ _))
    rw [List.filterMap_cons_some hx, List.length_cons, List.length_cons,
      length_filterMap_of_isSome f rest
        (fun y hy => h y (List.mem_cons_of_mem _ hy))]

/-- With every bin equally full, round `r` lists one position per bin. -/
theorem roundRow_length_of_full (assign : ℕ → ℕ) (N nbins r : ℕ)
    (hfull : ∀ b, b < nbins →
      (binListPos assign N b).length = maxBinLen assign N nbins)
    (hr : r < maxBinLen assign N nbins) :
    (roundRow assign N nbins r).length = nbins := by
  have hs : ∀ b ∈ List.range nbins,
      ((binListPos assign N b).get? r).isSome := by
    intro b hb
    have hlen : r < (binListPos assign N b).length := by
      rw [hfull b (List.mem_range.1 hb)]
      exact hr
    rw [List.get?_eq_get hlen]
    rfl
  unfold roundRow
  rw [(sortAsc_perm _).length_eq,
    length_filterMap_of_isSome (fun b => (binListPos assign N b).get? r)
      (List.range nbins) hs,
    List.length_range]

/-- Positions drawn from bins other than `b` never count for bin `b`. -/
theorem countP_filterMap_bins_zero (assign : ℕ → ℕ) (N r b : ℕ)
    (l : List ℕ) (hb : b ∉ l) :
    (l.filterMap (fun y => (binListPos assign N y).get? r)).countP
      (fun i => assign i = b) = 0 := by
  rw [List.countP_eq_zero]
  intro x hx
  obtain ⟨b', hb', hget⟩ := List.mem_filterMap.1 hx
  have hx' := ((mem_binListPos assign N b' x).1 (List.get?_mem hget)).2
  simp only [decide_eq_true_eq]
  intro he
  rw [hx'] at he
  exact hb (he ▸ hb')

/-- Exactly one position of bin `b` is drawn per round over a duplicate-free
list of occupied bins containing `b`. -/
theorem countP_filterMap_bins_one (assign : ℕ → ℕ) (N r b : ℕ) :
    ∀ (l : List ℕ), l.Nodup →
      (∀ y ∈ l, ((binListPos assign N y).get? r).isSome) →
      b ∈ l →
      (l.filterMap (fun y => (binListPos assign N y).get? r)).countP
        (fun i => assign i = b) = 1
  | [] => fun _ _ hb => absurd hb (List.not_mem_nil b)
  | a :: rest => by
    intro hnd hsome hb
    obtain ⟨x, hx⟩ :=
      Option.isSome_iff_exists.1 (hsome a (List.mem_cons_self _ _))
    rw [@List.filterMap_cons_some ℕ ℕ
      (fun y => (binListPos assign N y).get? r) a rest x hx, List.countP_cons]
    have hxa : assign x = a :=
      ((mem_binListPos assign N a x).1 (List.get?_mem hx)).2
    rcases List.mem_cons.1 hb with rfl | hb'
    · rw [countP_filterMap_bins_zero assign N r b rest (List.nodup_cons.1 hnd).1]
      simp [hxa]
    · have hba : ¬ (assign x = b) := by
        rw [hxa]
        intro he
        exact (List.nodup_cons.1 hnd).1 (he ▸ hb')
      rw [countP_filterMap_bins_one assign N r b rest (List.nodup_cons.1 hnd).2
        (fun y hy => hsome y (List.mem_cons_of_mem _ hy)) hb']
      simp [hba]

/-- With every bin equally full, each round holds exactly one position of each
bin. -/
theorem countP_roundRow_of_full (assign : ℕ → ℕ) (N nbins r b : ℕ)
    (hfull : ∀ y, y < nbins →
      (binListPos assign N y).length = maxBinLen assign N nbins)
    (hr : r < maxBinLen assign N nbins) (hb : b < nbins) :
    (roundRow assign N nbins r).countP (fun i => assign i = b) = 1 := by
  unfold roundRow
  rw [List.Perm.countP_eq _ (sortAsc_perm _)]
  refine countP_filterMap_bins_one assign N r b (List.range nbins)
    (List.nodup_range nbins) ?_ (List.mem_range.2 hb)
  intro y hy
  have hlen : r < (binListPos assign N y).length := by
    rw [hfull y (List.mem_range.1 hy)]
    exact hr
  rw [List.get?_eq_get hlen]
  rfl

/-- The total length of equally long rows. -/
theorem sum_lengths_const {α : Type} (nbins : ℕ) :
    ∀ (L : List (List α)), (∀ row ∈ L, row.length = nbins) →
      (L.map List.length).sum = L.length * nbins
  | [] => fun _ => by simp
  | row :: rest => by
    intro h
    rw [List.map_cons, List.sum_cons, List.length_cons,
      sum_lengths_const nbins rest (fun r hr => h r (List.mem_cons_of_mem _ hr)),
      h row (List.mem_cons_self _ _)]
    ring

/-- Prefix counting in a flatten of equal-length rows each of which holds
exactly one satisfying element: a prefix of length `k` holds between
`k / nbins` and `⌈k / nbins⌉` of them. -/
theorem countP_take_flatten (p : ℕ → Bool) (nbins : ℕ) (hnb : 0 < nbins) :
    ∀ (L : List (List ℕ)) (k : ℕ),
      (∀ row ∈ L, row.length = nbins ∧ row.countP p = 1) →
      k ≤ L.length * nbins →
      k / nbins ≤ (L.flatten.take k).countP p ∧
        (L.flatten.take k).countP p ≤ (k + nbins - 1) / nbins
  | [], k => by
    intro _ hk
    rw [List.length_nil, Nat.zero_mul, Nat.le_zero] at hk
    subst hk
    simp only [List.flatten_nil, List.take_nil, List.countP_nil]
    exact ⟨Nat.le_of_eq (Nat.zero_div _), Nat.zero_le _⟩
  | row :: rest, k => by
    intro hrows hk
    have hrow := hrows row (List.mem_cons_self _ _)
    have hrest : ∀ r ∈ rest, r.length = nbins ∧ r.countP p = 1 :=
      fun r hr => hrows r (List.mem_cons_of_mem _ hr)
    rw [List.flatten_cons, List.take_append_eq_append_take, List.countP_append,
      hrow.1]
    by_cases hcase : k ≤ nbins
    · have h0 : k - nbins = 0 := by omega
      rw [h0, List.take_zero, List.countP_nil, Nat.add_zero]
      constructor
      · rcases Nat.lt_or_ge k nbins with hlt | hge
        · rw [Nat.div_eq_of_lt hlt]
          exact Nat.zero_le _
        · have hkeq : k = nbins := le_antisymm hcase hge
          subst hkeq
          rw [List.take_of_length_le hrow.1.le, hrow.2, Nat.div_self hnb]
      · rcases Nat.eq_zero_or_pos k with rfl | hkpos
        · simp
        · refine le_trans ?_
            ((Nat.le_div_iff_mul_le hnb).2
              (show 1 * nbins ≤ k + nbins - 1 by omega))
          rw [← hrow.2]
          exact List.Sublist.countP_le p (List.take_sublist k row)
    · push_neg at hcase
      have hk' : k - nbins ≤ rest.length * nbins := by
        rw [List.length_cons] at hk
        have hmul : (rest.length + 1) * nbins = rest.length * nbins + nbins := by
          ring
        omega
      have hIH := countP_take_flatten p nbins hnb rest (k - nbins) hrest hk'
      rw [List.take_of_length_le (show row.length ≤ k by omega), hrow.2]
      have hdiv1 : k / nbins = (k - nbins) / nbins + 1 := by
        conv_lhs => rw [← Nat.sub_add_cancel (le_of_lt hcase)]
        rw [Nat.add_div_right _ hnb]
      have hdiv2 : (k + nbins - 1) / nbins = (k - 1) / nbins + 1 := by
        have h1 : k + nbins - 1 = (k - 1) + nbins := by omega
        rw [h1, Nat.add_div_right _ hnb]
      have h3 : k - nbins + nbins - 1 = k - 1 := by omega
      rw [h3] at hIH
      constructor
      · rw [hdiv1]
        omega
      · rw [hdiv2]
        omega

/-- Claim C3 (counterexample): for the 17-star field `starsC3` the grid has
`NX * NY = 9` bins (not 10), and the prefix of length `k = 11` of the Orderer
output draws 3 stars from bin 0, exceeding the claimed bound
`⌈k / bins⌉ = 2`: the round-robin emission of `astrometry_jni.c` lines
216-231 skips exhausted bins, so rounds shrink and a crowded bin can dominate
a prefix. -/
theorem claim_C3_counterexample :
    10 ≤ starsC3.length ∧ ordererNbins starsC3 = 9 ∧
    ¬ (((ordererIndices starsC3).take 11).countP
        (fun s => ordererBinOf starsC3 s = 0) ≤
          (11 + ordererNbins starsC3 - 1) / ordererNbins starsC3) := by
  decide

/-- Claim C3 (amended): when every bin of the uniformisation grid holds the
same number of stars (so every round of the round-robin emission of lines
216-231 is full), any prefix of length `k` of the emitted order draws between
`⌊k / nbins⌋` and `⌈k / nbins⌉` positions from each bin.  Without that
fullness hypothesis the bound fails (see the counterexample). -/
theorem claim_C3_amended (assign : ℕ → ℕ) (N nbins : ℕ)
    (hassign : ∀ i, i < N → assign i < nbins) (hnb : 0 < nbins)
    (hfull : ∀ b, b < nbins →
      (binListPos assign N b).length = maxBinLen assign N nbins)
    (k b : ℕ) (hk : k ≤ N) (hb : b < nbins) :
    k / nbins ≤ ((uniformPositions assign N nbins).take k).countP
        (fun i => assign i = b) ∧
      ((uniformPositions assign N nbins).take k).countP
        (fun i => assign i = b) ≤ (k + nbins - 1) / nbins := by
  have hlenU : (uniformPositions assign N nbins).length = N := by
    rw [(uniformPositions_perm_range assign N nbins hassign).length_eq,
      List.length_range]
  have hrows : ∀ row ∈ (List.range (maxBinLen assign N nbins)).map
      (roundRow assign N nbins), row.length = nbins ∧
      row.countP (fun i => assign i = b) = 1 := by
    intro row hrow
    obtain ⟨r, hr, rfl⟩ := List.mem_map.1 hrow
    exact ⟨roundRow_length_of_full assign N nbins r hfull (List.mem_range.1 hr),
      countP_roundRow_of_full assign N nbins r b hfull (List.mem_range.1 hr) hb⟩
  have hflat := sum_lengths_const nbins
    ((List.range (maxBinLen assign N nbins)).map (roundRow assign N nbins))
    (fun row hrow => (hrows row hrow).1)
  have hNeq : ((List.range (maxBinLen assign N nbins)).map
      (roundRow assign N nbins)).flatten.length = N := hlenU
  have hklen : k ≤ ((List.range (maxBinLen assign N nbins)).map
      (roundRow assign N nbins)).length * nbins := by
    rw [← hflat, ← List.length_flatten, hNeq]
    exact hk
  exact countP_take_flatten (fun i => assign i = b) nbins hnb _ k hrows hklen

/-- Witness for claim C3 (amended): six positions assigned round-robin to
three equally full bins; a prefix of length 4 holds between 1 and 2 positions
of bin 0. -/
theorem claim_C3_witness :
    1 ≤ ((uniformPositions (fun i => i % 3) 6 3).take 4).countP
        (fun i => i % 3 = 0) ∧
    ((uniformPositions (fun i => i % 3) 6 3).take 4).countP
        (fun i => i % 3 = 0) ≤ 2 :=
  claim_C3_amended (fun i => i % 3) 6 3 (by decide) (by decide) (by decide) 4 0
    (by decide) (by decide)

/-! Claim C5: a degenerate best affine slips past RANSAC and the warp step
silently skips the frame while `ok = 1` is reported. -/

/-- A vanishing first column kills the 3 by 3 determinant. -/
theorem det3_col1_zero (a2 a3 b2 b3 c2 c3 : ℚ) :
    det3 0 a2 a3 0 b2 b3 0 c2 c3 = 0 := by
  simp only [det3, qadd_eq, qsub_eq, qmul_eq]
  ring

/-- A vanishing second column kills the 3 by 3 determinant. -/
theorem det3_col2_zero (a1 a3 b1 b3 c1 c3 : ℚ) :
    det3 a1 0 a3 b1 0 b3 c1 0 c3 = 0 := by
  simp only [det3, qadd_eq, qsub_eq, qmul_eq]
  ring

/-- When all three reference points lie on the x axis, the solved affine has
a vanishing second row: `c = d = 0`. -/
theorem solveAffine3pt_cd_zero (c0 c1 c2 : Corr) (h0 : c0.refY = 0)
    (h1 : c1.refY = 0) (h2 : c2.refY = 0) (aff : Affine)
    (hsol : solveAffine3pt c0 c1 c2 = some aff) : aff.c = 0 ∧ aff.d = 0 := by
  simp only [solveAffine3pt] at hsol
  split_ifs at hsol with hdd
  injection hsol with he
  rw [← he]
  dsimp only
  rw [h0, h1, h2, det3_col1_zero, det3_col2_zero]
  simp only [qdiv_eq]
  exact ⟨zero_div _, zero_div _⟩

/-- Correspondence lists with flat reference points stay flat under `getD`. -/
theorem getD_refY_zero (l : List Corr) (h : ∀ cr ∈ l, cr.refY = 0) (i : ℕ) :
    (l.getD i default).refY = 0 := by
  by_cases hi : i < l.length
  · rw [List.getD_eq_getElem _ _ hi]
    exact h _ (List.mem_iff_getElem.2 ⟨i, hi, rfl⟩)
  · rw [List.getD_eq_default _ _ (le_of_not_lt hi)]
    rfl

/-- Over a flat correspondence list every RANSAC candidate keeps `c = d = 0`,
so the best affine stays degenerate. -/
theorem ransacLoop_cd_zero (corr : List Corr) (rng : ℕ → ℕ)
    (hcorr : ∀ cr ∈ corr, cr.refY = 0) :
    ∀ (iters pos : ℕ) (best : Affine × ℕ × SqrtQ),
      best.1.c = 0 ∧ best.1.d = 0 →
      (ransacLoop corr rng iters pos best).1.c = 0 ∧
        (ransacLoop corr rng iters pos best).1.d = 0
  | 0, _, _ => fun h => h
  | iters + 1, pos, best => by
    intro h
    simp only [ransacLoop]
    apply ransacLoop_cd_zero corr rng hcorr iters
    split
    · exact h
    · rename_i aff hsol
      have hcd := solveAffine3pt_cd_zero _ _ _
        (getD_refY_zero corr hcorr _) (getD_refY_zero corr hcorr _)
        (getD_refY_zero corr hcorr _) aff hsol
      split_ifs with hif
      · exact hcd
      · exact h

/-- The best inlier count never decreases along the RANSAC loop. -/
theorem ransacLoop_inliers_mono (corr : List Corr) (rng : ℕ → ℕ) :
    ∀ (iters pos : ℕ) (best : Affine × ℕ × SqrtQ),
      best.2.1 ≤ (ransacLoop corr rng iters pos best).2.1
  | 0, _, _ => le_refl _
  | iters + 1, pos, best => by
    simp only [ransacLoop]
    refine le_trans ?_ (ransacLoop_inliers_mono corr rng iters _ _)
    split
    · exact le_refl _
    · split_ifs with hif
      · rcases hif with hif | hif
        · exact le_of_lt hif
        · exact le_of_eq hif.1.symm
      · exact le_refl _

/-- Peeling one iteration off the front of the RANSAC loop. -/
theorem ransacLoop_add_one (corr : List Corr) (rng : ℕ → ℕ)
    (iters pos : ℕ) (best : Affine × ℕ × SqrtQ) :
    ransacLoop corr rng (iters + 1) pos best =
      ransacLoop corr rng iters (draw3 rng corr.length pos).2
        (ransacLoop corr rng 1 pos best) := rfl

/-- Peeling the first of the `RANSAC_ITERATIONS = 500` iterations. -/
theorem ransacLoop_500 (corr : List Corr) (rng : ℕ → ℕ) (pos : ℕ)
    (best : Affine × ℕ × SqrtQ) :
    ransacLoop corr rng 500 pos best =
      ransacLoop corr rng 499 (draw3 rng corr.length pos).2
        (ransacLoop corr rng 1 pos best) :=
  ransacLoop_add_one corr rng 499 pos best

/-- A degenerate affine (`c = d = 0`) has a zero determinant, so inversion
fails. -/
theorem invertAffine_of_cd_zero (aff : Affine) (hc : aff.c = 0)
    (hd : aff.d = 0) : invertAffine aff = none := by
  have h0 : qsub (qmul aff.a aff.d) (qmul aff.b aff.c) = 0 := by
    rw [hc, hd, qmul_eq, qmul_eq, qsub_eq]
    ring
  simp only [invertAffine, h0]
  rw [if_pos (show qlt (qabs 0) (mkRat 1 10000000000) by decide)]

/-- On a non-invertible affine the warp step leaves the accumulator
untouched (lines 488-492): in particular `frame_count` is not incremented. -/
theorem warpAndAccumulate_none (ctx : StackCtx) (image : List ℕ)
    (aff : Affine) (h : invertAffine aff = none) :
    warpAndAccumulate ctx image aff = ctx := by
  unfold warpAndAccumulate
  rw [h]

/-- The successful-alignment path of `addFrameNative` (lines 692-722): when
RANSAC reports a best model whose affine cannot be inverted, the function
still returns `ok = 1` while the context - `frame_count` included - is
returned unchanged. -/
theorem addFrame_ok_path (ctx : StackCtx) (pixels : List ℕ) (stars : List P3)
    (rng : ℕ → ℕ) (h0 : ¬ (ctx.frameCount = 0)) (tris : List Triangle)
    (hform : formTriangles (stars.take (min stars.length 50)) = some tris)
    (hn0 : ¬ (tris.length = 0))
    (hclen : ¬ ((matchTriangles (ctx.refTriangles.getD []) ctx.refStars tris
      stars).length < 3))
    (best : Affine × ℕ × SqrtQ)
    (hransac : ransacAffine (matchTriangles (ctx.refTriangles.getD [])
      ctx.refStars tris stars) rng = some best)
    (hinv : invertAffine best.1 = none) :
    addFrameNative ctx pixels stars rng =
      (ctx, some ⟨1, best.2.1, best.2.2, ctx.frameCount⟩) := by
  simp only [addFrameNative]
  rw [if_neg h0]
  split
  · rename_i heq
    rw [hform] at heq
    exact Option.noConfusion heq
  · rename_i newTri heq
    rw [hform] at heq
    injection heq with he
    subst he
    rw [if_neg hn0, if_neg hclen]
    split
    · rename_i heq2
      rw [hransac] at heq2
      exact Option.noConfusion heq2
    · rename_i best2 heq2
      rw [hransac] at heq2
      injection heq2 with he2
      subst he2
      rw [warpAndAccumulate_none ctx pixels best.1 hinv]

set_option maxHeartbeats 16000000 in
/-- Claim C5 (code bug): on the collinear-reference scenario the second
`add_frame` call reports `ok = 1` while the accumulator - `frame_count`
included - is unchanged: RANSAC settles on a degenerate affine (`c = d = 0`,
27 inliers), `warp_and_accumulate` bails out on the failed inversion
without incrementing `frame_count` (stacking_jni.c lines 488-492), and the
caller (lines 692-722) sets `ok = 1` regardless.  The spec's "frame_count
increments by 1 only on success" with ok = 1 as the success flag is violated
by the program. -/
theorem claim_C5 :
    (addFrameNative ctxC5 [7, 7] newStarsC5 (fun n => n)).2.map AddRes.ok = some 1 ∧
    (addFrameNative ctxC5 [7, 7] newStarsC5 (fun n => n)).1 = ctxC5 := by
  have h0 : ¬ (ctxC5.frameCount = 0) := by decide
  have hform : formTriangles (newStarsC5.take (min newStarsC5.length 50)) =
      some triC5 := by decide
  have hn0 : ¬ (triC5.length = 0) := by decide
  have hclen : ¬ ((matchTriangles (ctxC5.refTriangles.getD []) ctxC5.refStars triC5 newStarsC5).length < 3) := by decide
  have hrefY : ∀ cr ∈ (matchTriangles (ctxC5.refTriangles.getD []) ctxC5.refStars triC5 newStarsC5), cr.refY = 0 := by decide
  have hd1 : ransacLoop (matchTriangles (ctxC5.refTriangles.getD []) ctxC5.refStars triC5 newStarsC5) (fun n => n) 1 0 ((⟨0, 0, 0, 0, 0, 0⟩ : Affine), 0, (⟨mkRat 1000000000000000000 1⟩ : SqrtQ)) =
      ((⟨1, 0, 0, 0, 0, 0⟩ : Affine), 27, (⟨mkRat 32 27⟩ : SqrtQ)) := by decide
  have hd2 : (draw3 (fun n => n) (matchTriangles (ctxC5.refTriangles.getD []) ctxC5.refStars triC5 newStarsC5).length 0).2 = 3 := by decide
  have hadd := ransacLoop_500 (matchTriangles (ctxC5.refTriangles.getD []) ctxC5.refStars triC5 newStarsC5) (fun n => n) 0 ((⟨0, 0, 0, 0, 0, 0⟩ : Affine), 0, (⟨mkRat 1000000000000000000 1⟩ : SqrtQ))
  rw [hd1, hd2] at hadd
  have hmono := ransacLoop_inliers_mono (matchTriangles (ctxC5.refTriangles.getD []) ctxC5.refStars triC5 newStarsC5) (fun n => n) 499 3
    ((⟨1, 0, 0, 0, 0, 0⟩ : Affine), 27, (⟨mkRat 32 27⟩ : SqrtQ))
  have h27 : 27 ≤ (ransacLoop (matchTriangles (ctxC5.refTriangles.getD []) ctxC5.refStars triC5 newStarsC5) (fun n => n) 500 0 ((⟨0, 0, 0, 0, 0, 0⟩ : Affine), 0, (⟨mkRat 1000000000000000000 1⟩ : SqrtQ))).2.1 := by
    rw [hadd]
    exact hmono
  have hfz : ¬ ((ransacLoop (matchTriangles (ctxC5.refTriangles.getD []) ctxC5.refStars triC5 newStarsC5) (fun n => n) 500 0 ((⟨0, 0, 0, 0, 0, 0⟩ : Affine), 0, (⟨mkRat 1000000000000000000 1⟩ : SqrtQ))).2.1 = 0) := by omega
  have hransac : ransacAffine (matchTriangles (ctxC5.refTriangles.getD []) ctxC5.refStars triC5 newStarsC5) (fun n => n) =
      some (ransacLoop (matchTriangles (ctxC5.refTriangles.getD []) ctxC5.refStars triC5 newStarsC5) (fun n => n) 500 0 ((⟨0, 0, 0, 0, 0, 0⟩ : Affine), 0, (⟨mkRat 1000000000000000000 1⟩ : SqrtQ))) := by
    simp only [ransacAffine]
    rw [if_neg hclen, if_neg hfz]
  have hcd := ransacLoop_cd_zero (matchTriangles (ctxC5.refTriangles.getD []) ctxC5.refStars triC5 newStarsC5) (fun n => n) hrefY 500 0 ((⟨0, 0, 0, 0, 0, 0⟩ : Affine), 0, (⟨mkRat 1000000000000000000 1⟩ : SqrtQ)) ⟨rfl, rfl⟩
  have hinv := invertAffine_of_cd_zero _ hcd.1 hcd.2
  have hpath := addFrame_ok_path ctxC5 [7, 7] newStarsC5 (fun n => n) h0 triC5 hform
    hn0 hclen (ransacLoop (matchTriangles (ctxC5.refTriangles.getD []) ctxC5.refStars triC5 newStarsC5) (fun n => n) 500 0 ((⟨0, 0, 0, 0, 0, 0⟩ : Affine), 0, (⟨mkRat 1000000000000000000 1⟩ : SqrtQ))) hransac hinv
  rw [hpath]
  exact ⟨rfl, rfl⟩

end AstroApp
